import Mathlib

/-!
Verification of the canistorage canister (`src/canistorage.rs`).

The Rust code is shallowly embedded as pure Lean functions over an explicit
state.  The pieces modelled here are the ones the verified properties are
about: path validation and the sidecar/staging name derivations, the
per-node metadata records, the recursive permission resolver, `save`,
`load`, `get_info`, the upload session manager (`begin_upload`, `send_data`,
`commit_upload`, `cancel_upload`) and the ACL operations `add_permission`
and `remove_permission`.

Modelling conventions:
* `candid::Principal` values are modelled as naturals (the code only
  compares and orders them).
* `Sha256::digest`/the streaming hasher are modelled by an arbitrary
  function parameter `H : List Nat → Digest`; the streaming hasher state is
  the list of bytes fed so far, so `finalize` is `H` of the concatenation,
  which is exactly the contract of the incremental SHA-256 API.
* The backing volume is a pair of association lists: file contents keyed by
  path and metadata records keyed by the logical path (the sidecar name
  derivation is injective on validated paths because the backquote is a
  forbidden path character).
* The in-memory `UPLOADING` table is an association list as well.
* `u64` quantities are naturals; none of the modelled arithmetic can
  overflow 64 bits on reachable inputs and no claim is about wrap-around.
* The infinite loop that `commit_upload` enters when the offset chain hits
  an empty buffered chunk is made observable by running the assembly loop
  on fuel and returning `none` when the fuel is exhausted (the fuel bound
  is sufficient for every terminating run because the loop index strictly
  increases through distinct buffered offsets).
-/

namespace Canistorage

/-- Caller identities (`candid::Principal`); only equality and order are used. -/
abbrev Principal := Nat

/-- SHA-256 digests (`[u8; 32]` in the source). -/
abbrev Digest := List Nat

/-- Paths, as lists of characters; `String::rfind`/slicing act on positions. -/
abbrev Path := List Char

/-- Production root prefix: `const ROOT: &str = "/"`. -/
def ROOT : Path := ['/']

/-- The reserved backquote character used in sidecar and staging file names. -/
def btick : Char := Char.ofNat 96

/-- `const MIMETYPE_DIRECTORY: &str = "canistorage/directory"`. -/
def MIMETYPE_DIRECTORY : String := "canistorage/directory"

/-- `const MAX_PATH: usize = 1024`. -/
def MAX_PATH : Nat := 1024

/-- `const MAX_READ_SIZE: usize = 1024 * 1024`. -/
def MAX_READ_SIZE : Nat := 1024 * 1024

def ERROR_NOT_FOUND : Nat := 1

def ERROR_ALREADY_EXISTS : Nat := 2

def ERROR_INVALID_PATH : Nat := 3

def ERROR_INVALID_MIMETYPE : Nat := 4

def ERROR_PERMISSION_DENIED : Nat := 5

def ERROR_INVALID_SEQUENCE : Nat := 6

def ERROR_INVALID_SIZE : Nat := 7

def ERROR_INVALID_HASH : Nat := 8

/-- `pub struct Error { code: u32, message: String }`. -/
structure Error where
  code : Nat
  message : String
deriving DecidableEq

/-- `pub struct FileInfo` — the per-node sidecar metadata record. -/
structure FileInfo where
  size : Nat
  creator : Principal
  created_at : Nat
  updater : Principal
  updated_at : Nat
  mimetype : String
  manageable : List Principal
  readable : List Principal
  writable : List Principal
  sha256 : Option Digest
  signature : Option (List Nat)
deriving DecidableEq

/-- `FileInfo::is_dir`. -/
def FileInfo.is_dir (info : FileInfo) : Bool :=
  info.mimetype = MIMETYPE_DIRECTORY

/-- `struct Uploading` — one in-memory upload session. -/
structure Uploading where
  owner : Principal
  size : Nat
  updated_at : Nat
  mimetype : String
  chunk : List (Nat × List Nat)
deriving DecidableEq

/-- `pub struct Download` — the result of `load`. -/
structure Download where
  size : Nat
  downloaded_at : Nat
  chunk : List Nat
  sha256 : Option Digest
deriving DecidableEq

/-- `pub struct Info` — the result of `get_info`. -/
structure Info where
  size : Nat
  creator : Principal
  created_at : Nat
  updater : Principal
  updated_at : Nat
  mimetype : String
  sha256 : Option Digest
deriving DecidableEq

/-- The canister state: file contents, metadata records and the `UPLOADING`
session table. -/
structure St where
  fs : List (Path × List Nat)
  meta : List (Path × FileInfo)
  uploading : List (Path × Uploading)
deriving DecidableEq

/-- Lookup in an association list (`HashMap::get`, first matching key). -/
def alookup {α β : Type} [DecidableEq α] (l : List (α × β)) (k : α) : Option β :=
  match l with
  | [] => none
  | kv :: rest => if kv.1 = k then some kv.2 else alookup rest k

/-- Insert or replace in an association list (`HashMap::insert`). -/
def ainsert {α β : Type} [DecidableEq α] (k : α) (v : β) : List (α × β) → List (α × β)
  | [] => [(k, v)]
  | kv :: rest => if kv.1 = k then (k, v) :: rest else kv :: ainsert k v rest

/-- Remove a key from an association list (`HashMap::remove`). -/
def aremove {α β : Type} [DecidableEq α] (k : α) : List (α × β) → List (α × β)
  | [] => []
  | kv :: rest => if kv.1 = k then aremove k rest else kv :: aremove k rest

/-- `haystack.contains(needle)` on strings: some suffix starts with `sub`. -/
def containsSub (sub : Path) : Path → Bool
  | [] => sub.isEmpty
  | c :: rest => sub.isPrefixOf (c :: rest) || containsSub sub rest

/-- `path.rfind("/")`: position of the last slash, if any. -/
def rfindSlash : Path → Option Nat
  | [] => none
  | c :: rest =>
    match rfindSlash rest with
    | some i => some (i + 1)
    | none => if c = '/' then some 0 else none

/-- `fn validate_path(path: &String) -> Result<(), Error>`. -/
def validate_path (path : Path) : Except Error Unit :=
  if path.length = 0 then .error ⟨ERROR_INVALID_PATH, "Path is empty"⟩
  else if path.length > MAX_PATH then .error ⟨ERROR_INVALID_PATH, "Path is too long"⟩
  else if ROOT.isPrefixOf path = false then .error ⟨ERROR_INVALID_PATH, "Not full path"⟩
  else if path.length > 1 ∧ path.getLast? = some '/' then
    .error ⟨ERROR_INVALID_PATH, "Ends with path separator (/)"⟩
  else if containsSub ['.', '.'] path || containsSub [btick] path then
    .error ⟨ERROR_INVALID_PATH, "Path contains invalid characters"⟩
  else .ok ()

/-- `fn parent_path(path: &String) -> String`. -/
def parent_path (path : Path) : Path :=
  if path = ROOT then []
  else
    match rfindSlash path with
    | some i => path.take i
    | none => []

/-- `fn temp_path(path: &String) -> String` — the staging-file name. -/
def temp_path (path : Path) : Path :=
  if path = ROOT then ['/', btick, btick]
  else
    match rfindSlash path with
    | some i => path.take (i + 1) ++ [btick, btick] ++ path.drop (i + 1)
    | none => [btick, btick] ++ path

/-- `fn get_file_info(path: &String) -> Option<FileInfo>` on the modelled state. -/
def get_file_info (s : St) (path : Path) : Option FileInfo :=
  alookup s.meta path

/-- `fn set_file_info(path: &String, info: &FileInfo)` on the modelled state
(the create-truncate-write of the sidecar file never fails in the model). -/
def set_file_info (s : St) (path : Path) (info : FileInfo) : St :=
  { s with meta := ainsert path info s.meta }

/-- The parent path computed inside the three `check_*_permission` walks:
`path.rfind("/")` prefix, and the special case `"" → "/"`. -/
def parentForCheck (path : Path) : Path :=
  match rfindSlash path with
  | some i => path.take i
  | none => ROOT

/-- The local test at the head of each `check_*_permission`:
`if let Some(info) = file_info { if info.<acl>.iter().any(|p| p == principal) ... }`. -/
def localAcl (acl : FileInfo → List Principal) (principal : Principal) :
    Option FileInfo → Bool
  | some info => (acl info).any (fun q => q == principal)
  | none => false

/-- Common body of `check_manage_permission`/`check_read_permission`/
`check_write_permission`, with the inspected ACL column as a parameter.
The recursion of the source is run on fuel so that the definition is
structural; `permFuel` is always enough (see `checkPermAux_fuel_eq`). -/
def checkPermAux (get : Path → Option FileInfo) (acl : FileInfo → List Principal)
    (principal : Principal) : Nat → Path → Option FileInfo → Bool
  | 0, _, _ => false
  | fuel + 1, path, file_info =>
    localAcl acl principal file_info
    || (if path = ROOT then false
        else
          let pp := parentForCheck path
          checkPermAux get acl principal fuel pp (get pp))

/-- Fuel sufficient for the permission walk starting from `path`. -/
def permFuel (path : Path) : Nat :=
  path.length + 4

/-- `fn check_manage_permission(principal, path, file_info) -> bool`. -/
def check_manage_permission (get : Path → Option FileInfo) (principal : Principal)
    (path : Path) (file_info : Option FileInfo) : Bool :=
  checkPermAux get FileInfo.manageable principal (permFuel path) path file_info

/-- `fn check_read_permission(principal, path, file_info) -> bool`. -/
def check_read_permission (get : Path → Option FileInfo) (principal : Principal)
    (path : Path) (file_info : Option FileInfo) : Bool :=
  checkPermAux get FileInfo.readable principal (permFuel path) path file_info

/-- `fn check_write_permission(principal, path, file_info) -> bool`. -/
def check_write_permission (get : Path → Option FileInfo) (principal : Principal)
    (path : Path) (file_info : Option FileInfo) : Bool :=
  checkPermAux get FileInfo.writable principal (permFuel path) path file_info

/-- `pub fn save(path, mimetype, data, overwrite) -> Result<(), Error>`.
`H` is the SHA-256 digest function; `caller`/`now` are the ambient
identity and clock. -/
def save (H : List Nat → Digest) (s : St) (caller : Principal) (now : Nat)
    (path : Path) (mimetype : String) (data : List Nat) (overwrite : Bool) :
    Except Error St :=
  match validate_path path with
  | .error e => .error e
  | .ok _ =>
    if mimetype = "" ∨ mimetype = MIMETYPE_DIRECTORY then
      .error ⟨ERROR_INVALID_MIMETYPE, "Invalid mimetype"⟩
    else
      let file_info := get_file_info s path
      if check_write_permission (get_file_info s) caller path file_info = false then
        .error ⟨ERROR_PERMISSION_DENIED, "Permission denied"⟩
      else if (alookup s.uploading path).isSome then
        .error ⟨ERROR_ALREADY_EXISTS, "File already exists"⟩
      else if file_info.isSome ∧ overwrite = false then
        .error ⟨ERROR_ALREADY_EXISTS, "File already exists"⟩
      else
        match get_file_info s (parent_path path) with
        | none => .error ⟨ERROR_NOT_FOUND, "Parent directory not found"⟩
        | some parent_info =>
          if parent_info.is_dir = false then
            .error ⟨ERROR_NOT_FOUND, "Parent directory not found"⟩
          else
            let info : FileInfo :=
              match file_info with
              | some i =>
                { i with size := data.length, updated_at := now, mimetype := mimetype,
                         sha256 := some (H data), signature := none }
              | none =>
                { size := data.length, creator := caller, created_at := now,
                  updater := caller, updated_at := now, mimetype := mimetype,
                  manageable := [], readable := [], writable := [],
                  sha256 := some (H data), signature := none }
            let fs1 := ainsert (temp_path path) data s.fs
            let fs2 := ainsert path data (aremove (temp_path path) fs1)
            .ok (set_file_info { s with fs := fs2 } path info)

/-- `pub fn load(path, start_at) -> Result<Download, Error>`. -/
def load (s : St) (caller : Principal) (path : Path) (start_at : Nat) :
    Except Error Download :=
  match validate_path path with
  | .error e => .error e
  | .ok _ =>
    let file_info := get_file_info s path
    if check_read_permission (get_file_info s) caller path file_info = false then
      .error ⟨ERROR_PERMISSION_DENIED, "Permission denied"⟩
    else
      match file_info with
      | none => .error ⟨ERROR_NOT_FOUND, "File not found"⟩
      | some info =>
        match alookup s.fs path with
        | none => .error ⟨ERROR_NOT_FOUND, "File not found"⟩
        | some content =>
          let readsize := min MAX_READ_SIZE (content.length - start_at)
          let downloaded_at := start_at + readsize
          .ok { size := info.size, downloaded_at := downloaded_at,
                chunk := (content.drop start_at).take readsize,
                sha256 := if info.size = downloaded_at then info.sha256 else none }

/-- `pub fn get_info(path) -> Result<Info, Error>`. -/
def get_info (s : St) (caller : Principal) (path : Path) : Except Error Info :=
  match validate_path path with
  | .error e => .error e
  | .ok _ =>
    let file_info := get_file_info s path
    if check_read_permission (get_file_info s) caller path file_info = false then
      .error ⟨ERROR_PERMISSION_DENIED, "Permission denied"⟩
    else
      match file_info with
      | some info =>
        .ok { size := info.size, creator := info.creator, created_at := info.created_at,
              updater := info.updater, updated_at := info.updated_at,
              mimetype := info.mimetype, sha256 := info.sha256 }
      | none => .error ⟨ERROR_NOT_FOUND, "File not found"⟩

/-- `pub fn begin_upload(path, mimetype, overwrite) -> Result<(), Error>`. -/
def begin_upload (s : St) (caller : Principal) (now : Nat) (path : Path)
    (mimetype : String) (overwrite : Bool) : Except Error St :=
  match validate_path path with
  | .error e => .error e
  | .ok _ =>
    if mimetype = "" ∨ mimetype = MIMETYPE_DIRECTORY then
      .error ⟨ERROR_INVALID_MIMETYPE, "Invalid mimetype"⟩
    else
      let file_info := get_file_info s path
      if check_write_permission (get_file_info s) caller path file_info = false then
        .error ⟨ERROR_PERMISSION_DENIED, "Permission denied"⟩
      else if (alookup s.uploading path).isSome then
        .error ⟨ERROR_ALREADY_EXISTS, "File already exists"⟩
      else if file_info.isSome ∧ overwrite = false then
        .error ⟨ERROR_ALREADY_EXISTS, "File already exists"⟩
      else
        match get_file_info s (parent_path path) with
        | none => .error ⟨ERROR_NOT_FOUND, "Parent directory not found"⟩
        | some parent_info =>
          if parent_info.is_dir = false then
            .error ⟨ERROR_NOT_FOUND, "Parent directory not found"⟩
          else
            let swept := s.uploading.filter
              (fun kv => decide (kv.2.updated_at + 10 * 60 * 1000 ≥ now))
            .ok { s with uploading :=
                    ainsert path ⟨caller, 0, now, mimetype, []⟩ swept }

/-- `pub fn send_data(path, start, data) -> Result<u64, Error>`; the returned
pair is the new running size and the new state. -/
def send_data (s : St) (caller : Principal) (now : Nat) (path : Path)
    (start : Nat) (data : List Nat) : Except Error (Nat × St) :=
  match alookup s.uploading path with
  | none => .error ⟨ERROR_INVALID_SEQUENCE, "Invalid sequence"⟩
  | some v =>
    if v.owner ≠ caller then .error ⟨ERROR_INVALID_SEQUENCE, "Invalid sequence"⟩
    else if v.updated_at + 10 * 60 * 1000 < now then
      .error ⟨ERROR_PERMISSION_DENIED, "session expired"⟩
    else
      let size2 :=
        match alookup v.chunk start with
        | some old => v.size + data.length - old.length
        | none => v.size + data.length
      let v' : Uploading :=
        { v with size := size2, updated_at := now, chunk := ainsert start data v.chunk }
      .ok (size2, { s with uploading := ainsert path v' s.uploading })

/-- Outcome of the chunk-assembly loop inside `commit_upload`. -/
inductive LoopOut where
  | invalidSize : List Nat → LoopOut
  | invalidHash : List Nat → LoopOut
  | finished : List Nat → LoopOut
  | fuelOut : LoopOut
deriving DecidableEq

/-- The `loop { match value.chunk.get(&index) ... }` of `commit_upload`:
follow the offset chain from `index`, concatenating the buffered chunks
(the accumulated list doubles as the streaming-hasher input).  The Rust
loop has no fuel; `fuelOut` marks runs that exceed the given fuel, which
only happens on the source's infinite loop (an empty chunk on the chain). -/
def commitLoop (H : List Nat → Digest) (chunks : List (Nat × List Nat)) (size : Nat)
    (sha256 : Option Digest) : Nat → Nat → List Nat → LoopOut
  | 0, _, _ => .fuelOut
  | fuel + 1, index, acc =>
    match alookup chunks index with
    | some data => commitLoop H chunks size sha256 fuel (index + data.length) (acc ++ data)
    | none =>
      if index ≠ size then .invalidSize acc
      else
        match sha256 with
        | some g => if g ≠ H acc then .invalidHash acc else .finished acc
        | none => .finished acc

/-- `pub fn commit_upload(path, size, sha256) -> Result<(), Error>`.
Returns `none` when the source diverges (assembly loop never terminates);
otherwise `some (result, new state)`.  On `INVALID_SIZE`/`INVALID_HASH` the
staging file keeps the bytes the dropped buffered writer flushed. -/
def commit_upload (H : List Nat → Digest) (s : St) (caller : Principal) (now : Nat)
    (path : Path) (size : Nat) (sha256 : Option Digest) :
    Option (Except Error Unit × St) :=
  match alookup s.uploading path with
  | none => some (.error ⟨ERROR_INVALID_SEQUENCE, "Invalid sequence"⟩, s)
  | some v =>
    if v.owner ≠ caller then
      some (.error ⟨ERROR_INVALID_SEQUENCE, "Invalid sequence"⟩, s)
    else if v.updated_at + 10 * 60 * 1000 < now then
      some (.error ⟨ERROR_PERMISSION_DENIED, "transaction expired"⟩, s)
    else if v.size ≠ size then
      some (.error ⟨ERROR_INVALID_SEQUENCE, "Invalid sequence"⟩, s)
    else
      match commitLoop H v.chunk size sha256 (v.chunk.length + 1) 0 [] with
      | .fuelOut => none
      | .invalidSize acc =>
        some (.error ⟨ERROR_INVALID_SIZE, "Invalid size"⟩,
              { s with fs := ainsert (temp_path path) acc s.fs })
      | .invalidHash acc =>
        some (.error ⟨ERROR_INVALID_HASH, "Invalid hash"⟩,
              { s with fs := ainsert (temp_path path) acc s.fs })
      | .finished acc =>
        let info : FileInfo :=
          match get_file_info s path with
          | some i =>
            { i with size := size, updated_at := now, mimetype := v.mimetype,
                     sha256 := some (H acc), signature := none }
          | none =>
            { size := size, creator := caller, created_at := now,
              updater := caller, updated_at := now, mimetype := v.mimetype,
              manageable := [], readable := [], writable := [],
              sha256 := some (H acc), signature := none }
        let fs1 := ainsert (temp_path path) acc s.fs
        let fs2 := ainsert path acc (aremove (temp_path path) fs1)
        some (.ok (),
              { set_file_info { s with fs := fs2 } path info with
                  uploading := aremove path s.uploading })

/-- `pub fn cancel_upload(path) -> Result<(), Error>`.  Note: no expiry check. -/
def cancel_upload (s : St) (caller : Principal) (path : Path) : Except Error St :=
  match alookup s.uploading path with
  | none => .error ⟨ERROR_INVALID_SEQUENCE, "Invalid sequence"⟩
  | some v =>
    if v.owner ≠ caller then .error ⟨ERROR_INVALID_SEQUENCE, "Invalid sequence"⟩
    else .ok { s with uploading := aremove path s.uploading }

/-- `slice::binary_search_by_key(&&principal, |p| p)`, run on fuel so that the
definition is structural; returns the index of a matching element. -/
def bsearchAux (t : Nat) : Nat → List Nat → Option Nat
  | 0, _ => none
  | _ + 1, [] => none
  | fuel + 1, a :: rest =>
    let l := a :: rest
    let mid := l.length / 2
    let x := l.getD mid 0
    if x < t then (bsearchAux t fuel (l.drop (mid + 1))).map (fun j => mid + 1 + j)
    else if t < x then bsearchAux t fuel (l.take mid)
    else some mid

/-- `vec.binary_search_by_key(&&principal, |p| p)`. -/
def binary_search (l : List Principal) (t : Principal) : Option Nat :=
  bsearchAux t (l.length + 1) l

/-- The insertion arm of `add_permission`:
`if vec.binary_search(..).is_err() { vec.push(principal); vec.sort(); }`.
`Vec::sort` is modelled by insertion sort; any correct sort produces the
same list on the duplicate-free inputs arising here. -/
def aclInsert (l : List Principal) (p : Principal) : List Principal :=
  match binary_search l p with
  | some _ => l
  | none => List.insertionSort (· ≤ ·) (l ++ [p])

/-- The removal arm of `remove_permission`:
`match vec.binary_search(..) { Ok(i) => vec.remove(i), Err(_) => {} }`. -/
def aclRemove (l : List Principal) (p : Principal) : List Principal :=
  match binary_search l p with
  | some index => l.eraseIdx index
  | none => l

/-- `pub fn add_permission(path, principal, manageable, readable, writable)`. -/
def add_permission (s : St) (caller : Principal) (path : Path) (principal : Principal)
    (manageable readable writable : Bool) : Except Error St :=
  match validate_path path with
  | .error e => .error e
  | .ok _ =>
    let file_info := get_file_info s path
    if check_manage_permission (get_file_info s) caller path file_info = false then
      .error ⟨ERROR_PERMISSION_DENIED, "Permission denied"⟩
    else
      match file_info with
      | some info =>
        let i1 := if manageable then
            { info with manageable := aclInsert info.manageable principal } else info
        let i2 := if readable then
            { i1 with readable := aclInsert i1.readable principal } else i1
        let i3 := if writable then
            { i2 with writable := aclInsert i2.writable principal } else i2
        .ok (set_file_info s path i3)
      | none => .error ⟨ERROR_NOT_FOUND, "File not found"⟩

/-- `pub fn remove_permission(path, principal, manageable, readable, writable)`. -/
def remove_permission (s : St) (caller : Principal) (path : Path) (principal : Principal)
    (manageable readable writable : Bool) : Except Error St :=
  match validate_path path with
  | .error e => .error e
  | .ok _ =>
    let file_info := get_file_info s path
    if check_manage_permission (get_file_info s) caller path file_info = false then
      .error ⟨ERROR_PERMISSION_DENIED, "Permission denied"⟩
    else
      match file_info with
      | some info =>
        let i1 := if manageable then
            { info with manageable := aclRemove info.manageable principal } else info
        let i2 := if readable then
            { i1 with readable := aclRemove i1.readable principal } else i1
        let i3 := if writable then
            { i2 with writable := aclRemove i2.writable principal } else i2
        .ok (set_file_info s path i3)
      | none => .error ⟨ERROR_NOT_FOUND, "File not found"⟩

/-!  Specification-side relations used to state the verified properties. -/

/-- `Ancestor p q`: `q` lies on the walk the permission resolver performs
from `p` (that is, `q` is `p` itself or an iterated `parentForCheck`). -/
inductive Ancestor : Path → Path → Prop
  | refl (p : Path) : Ancestor p p
  | step {p q : Path} : p ≠ ROOT → Ancestor (parentForCheck p) q → Ancestor p q

/-- `ReachFrom chunks i k`: the offset chain that starts at `i` and advances
by the length of the buffered chunk at the current offset reaches `k`. -/
inductive ReachFrom (chunks : List (Nat × List Nat)) : Nat → Nat → Prop
  | refl (i : Nat) : ReachFrom chunks i i
  | step {i k : Nat} {d : List Nat} : alookup chunks i = some d →
      ReachFrom chunks (i + d.length) k → ReachFrom chunks i k

/-- The offset chain starting at 0, as in `commit_upload`'s assembly loop. -/
def Reach (chunks : List (Nat × List Nat)) (i : Nat) : Prop :=
  ReachFrom chunks 0 i

/-- `AsmFrom chunks size i rest`: starting at offset `i`, the chain of
buffered chunks concatenates to `rest` and its first missing offset is
exactly `size`. -/
inductive AsmFrom (chunks : List (Nat × List Nat)) (size : Nat) : Nat → List Nat → Prop
  | done {i : Nat} : alookup chunks i = none → i = size → AsmFrom chunks size i []
  | cons {i : Nat} {d rest : List Nat} : alookup chunks i = some d →
      AsmFrom chunks size (i + d.length) rest → AsmFrom chunks size i (d ++ rest)

/-- The complete assembly of an upload session's chunks. -/
def Assembles (chunks : List (Nat × List Nat)) (size : Nat) (asm : List Nat) : Prop :=
  AsmFrom chunks size 0 asm

/-- Sorted and duplicate-free, the maintained shape of the three ACL columns. -/
def StrictSorted (l : List Principal) : Prop :=
  List.Sorted (· < ·) l

/-- Total number of buffered bytes of an upload session's chunk table. -/
def chunkSum (chunks : List (Nat × List Nat)) : Nat :=
  (chunks.map (fun kv => kv.2.length)).sum

/-- The chunk table has pairwise distinct offsets (a `HashMap` invariant). -/
def keysNodup {β : Type} (l : List (Nat × β)) : Prop :=
  (l.map Prod.fst).Nodup

/-!  Concrete data used by the witness and counterexample theorems. -/

/-- A concrete non-root path, `"/a"`. -/
def pA : Path := ['/', 'a']

/-- The directory path `"/d"`. -/
def pD : Path := ['/', 'd']

/-- The file path `"/d/a"` (its parent `"/d"` is a directory below). -/
def pDA : Path := ['/', 'd', '/', 'a']

/-- Root metadata as written by `init_canistorage` for owner `0` at time 0. -/
def rootInfo : FileInfo :=
  { size := 0, creator := 0, created_at := 0, updater := 0, updated_at := 0,
    mimetype := MIMETYPE_DIRECTORY, manageable := [0], readable := [0],
    writable := [0], sha256 := none, signature := none }

/-- Metadata of the directory `"/d"` (all capabilities inherited from root). -/
def dirInfo : FileInfo :=
  { size := 0, creator := 0, created_at := 0, updater := 0, updated_at := 0,
    mimetype := MIMETYPE_DIRECTORY, manageable := [], readable := [],
    writable := [], sha256 := none, signature := none }

/-- Freshly initialised state: only the root directory record exists. -/
def s0 : St := { fs := [], meta := [(ROOT, rootInfo)], uploading := [] }

/-- `s0` with the directory `"/d"` created. -/
def s1 : St := { fs := [], meta := [(ROOT, rootInfo), (pD, dirInfo)], uploading := [] }

/-- An upload session owned by principal `0`, last touched at time 0. -/
def sessA : Uploading :=
  { owner := 0, size := 3, updated_at := 0, mimetype := "text/plain",
    chunk := [(0, [10, 11, 12])] }

/-- `s1` with the session `sessA` buffered for `"/d/a"`; at `nowLate` the
session has been idle longer than the 10-minute bound. -/
def sExp : St :=
  { fs := [], meta := [(ROOT, rootInfo), (pD, dirInfo)], uploading := [(pDA, sessA)] }

/-- A time strictly beyond the session expiry bound of `sessA`. -/
def nowLate : Nat := 700000

/-- The file path `"/d/b"`, a sibling of `"/d/a"`. -/
def pDB : Path := ['/', 'd', '/', 'b']

/-- The session inserted by `begin_upload` for `"/d/b"` at `nowLate`. -/
def sessFresh : Uploading :=
  { owner := 0, size := 0, updated_at := nowLate, mimetype := "text/plain", chunk := [] }

/-- The state produced by `begin_upload sExp 0 nowLate pDB "text/plain" false`:
the expired session at `"/d/a"` has been swept and the fresh one inserted. -/
def sBegin : St :=
  { fs := [], meta := [(ROOT, rootInfo), (pD, dirInfo)], uploading := [(pDB, sessFresh)] }

/-- A session holding a single empty chunk at offset 0. -/
def sessEC : Uploading :=
  { owner := 0, size := 0, updated_at := 0, mimetype := "text/plain",
    chunk := [(0, [])] }

/-- `s1` with the empty-chunk session buffered for `"/d/a"`. -/
def sEC : St :=
  { fs := [], meta := [(ROOT, rootInfo), (pD, dirInfo)], uploading := [(pDA, sessEC)] }

/-- A concrete stand-in digest function for witness evaluation. -/
def H0 : List Nat → Digest := fun l => l

/-- Root metadata after granting all three capabilities to principal 4. -/
def rootInfoC10 : FileInfo :=
  { rootInfo with manageable := [0, 4], readable := [0, 4], writable := [0, 4] }

/-- The state produced by `add_permission s0 0 ROOT 4 true true true`. -/
def sAddC10 : St :=
  { fs := [], meta := [(ROOT, rootInfoC10)], uploading := [] }

/-- The state produced by `save H0 s1 0 5 pDA "text/plain" [1,2,3] true`. -/
def sC1 : St :=
  { fs := [(pDA, [1, 2, 3])],
    meta := [(ROOT, rootInfo), (pD, dirInfo),
             (pDA, { size := 3, creator := 0, created_at := 5, updater := 0, updated_at := 5,
                     mimetype := "text/plain", manageable := [], readable := [],
                     writable := [], sha256 := some [1, 2, 3], signature := none })],
    uploading := [] }

/-!  Association-list lemmas. -/

theorem alookup_ainsert_self {α β : Type} [DecidableEq α] (l : List (α × β)) (k : α) (v : β) :
    alookup (ainsert k v l) k = some v := by
  induction l with
  | nil => simp [ainsert, alookup]
  | cons kv rest ih =>
    by_cases h : kv.1 = k
    · simp [ainsert, h, alookup]
    · simp [ainsert, h, alookup, ih]

theorem alookup_ainsert_ne {α β : Type} [DecidableEq α] (l : List (α × β)) {k k' : α}
    (v : β) (h : k ≠ k') : alookup (ainsert k v l) k' = alookup l k' := by
  induction l with
  | nil => simp [ainsert, alookup, h]
  | cons kv rest ih =>
    by_cases hkv : kv.1 = k
    · simp [ainsert, alookup, hkv, h]
    · simp only [ainsert, if_neg hkv, alookup]
      by_cases hk' : kv.1 = k'
      · simp [hk']
      · simp [hk', ih]

theorem alookup_aremove_self {α β : Type} [DecidableEq α] (l : List (α × β)) (k : α) :
    alookup (aremove k l) k = none := by
  induction l with
  | nil => simp [aremove, alookup]
  | cons kv rest ih =>
    by_cases h : kv.1 = k
    · simpa [aremove, h] using ih
    · simp [aremove, h, alookup, ih]

theorem alookup_aremove_ne {α β : Type} [DecidableEq α] (l : List (α × β)) {k k' : α}
    (h : k ≠ k') : alookup (aremove k l) k' = alookup l k' := by
  induction l with
  | nil => simp [aremove]
  | cons kv rest ih =>
    by_cases hkv : kv.1 = k
    · have : ¬ kv.1 = k' := by simpa [hkv] using h
      simp [aremove, hkv, alookup, this, ih, h]
    · simp only [aremove, if_neg hkv, alookup]
      by_cases hk' : kv.1 = k'
      · simp [hk']
      · simp [hk', ih]

theorem ainsert_no_op {α β : Type} [DecidableEq α] {l : List (α × β)} {k : α} {v : β}
    (h : alookup l k = some v) : ainsert k v l = l := by
  induction l with
  | nil => simp [alookup] at h
  | cons kv rest ih =>
    by_cases hkv : kv.1 = k
    · simp only [alookup, if_pos hkv] at h
      injection h with h2
      simp only [ainsert, if_pos hkv]
      rw [← hkv, ← h2]
    · simp only [alookup, if_neg hkv] at h
      simp [ainsert, hkv, ih h]

theorem alookup_mem_keys {α β : Type} [DecidableEq α] {l : List (α × β)} {k : α} {v : β}
    (h : alookup l k = some v) : k ∈ l.map Prod.fst := by
  induction l with
  | nil => simp [alookup] at h
  | cons kv rest ih =>
    by_cases hkv : kv.1 = k
    · simp [hkv]
    · simp only [alookup, if_neg hkv] at h
      simp [ih h]

theorem alookup_mem {α β : Type} [DecidableEq α] {l : List (α × β)} {k : α} {v : β}
    (h : alookup l k = some v) : (k, v) ∈ l := by
  induction l with
  | nil => simp [alookup] at h
  | cons kv rest ih =>
    by_cases hkv : kv.1 = k
    · simp only [alookup, if_pos hkv] at h
      injection h with h2
      exact List.mem_cons.mpr (Or.inl (by rw [← hkv, ← h2]))
    · simp only [alookup, if_neg hkv] at h
      exact List.mem_cons_of_mem _ (ih h)

theorem keys_ainsert_sub {α β : Type} [DecidableEq α] {l : List (α × β)} {k x : α} {v : β}
    (h : x ∈ (ainsert k v l).map Prod.fst) : x = k ∨ x ∈ l.map Prod.fst := by
  induction l with
  | nil => simpa [ainsert] using h
  | cons kv rest ih =>
    by_cases hkv : kv.1 = k
    · simp only [ainsert, if_pos hkv, List.map_cons, List.mem_cons] at h
      rcases h with h | h
      · exact Or.inl h
      · exact Or.inr (by simp [h])
    · simp only [ainsert, if_neg hkv, List.map_cons, List.mem_cons] at h
      rcases h with h | h
      · exact Or.inr (by simp [h])
      · rcases ih h with h | h
        · exact Or.inl h
        · exact Or.inr (by simp [h])

theorem keysNodup_ainsert {β : Type} {l : List (Nat × β)} {k : Nat} {v : β}
    (h : keysNodup l) : keysNodup (ainsert k v l) := by
  induction l with
  | nil => simp [keysNodup, ainsert]
  | cons kv rest ih =>
    simp only [keysNodup, List.map_cons, List.nodup_cons] at h
    by_cases hkv : kv.1 = k
    · simp only [keysNodup, ainsert, if_pos hkv, List.map_cons, List.nodup_cons]
      exact ⟨hkv ▸ h.1, h.2⟩
    · have ih' := ih h.2
      simp only [keysNodup, ainsert, if_neg hkv, List.map_cons, List.nodup_cons]
      refine ⟨fun hm => ?_, ih'⟩
      rcases keys_ainsert_sub hm with h1 | h1
      · exact hkv h1
      · exact h.1 h1

/-!  Path lemmas. -/

theorem rfindSlash_lt_length {p : Path} {i : Nat} (h : rfindSlash p = some i) :
    i < p.length := by
  induction p generalizing i with
  | nil => simp [rfindSlash] at h
  | cons c rest ih =>
    simp only [rfindSlash] at h
    rcases hr : rfindSlash rest with _ | j
    · rw [hr] at h
      by_cases hc : c = '/'
      · rw [if_pos hc] at h
        cases h
        simp
      · rw [if_neg hc] at h
        cases h
    · rw [hr] at h
      cases h
      have := ih hr
      simp only [List.length_cons]
      omega

theorem containsSub_of_mem {c : Char} {l : Path} (h : c ∈ l) :
    containsSub [c] l = true := by
  induction l with
  | nil => simp at h
  | cons a rest ih =>
    rcases List.mem_cons.mp h with h | h
    · subst h
      simp [containsSub, List.isPrefixOf]
    · simp [containsSub, ih h]

theorem btick_mem_temp (p : Path) : btick ∈ temp_path p := by
  by_cases h : p = ROOT
  · simp [temp_path, h]
  · simp only [temp_path, if_neg h]
    rcases hr : rfindSlash p with _ | i
    · simp
    · simp

theorem validate_no_btick {p : Path} (h : validate_path p = .ok ()) : btick ∉ p := by
  intro hmem
  simp only [validate_path] at h
  split at h
  · cases h
  · split at h
    · cases h
    · split at h
      · cases h
      · split at h
        · cases h
        · split at h
          · cases h
          · rename_i hc
            exact hc (by simp [containsSub_of_mem hmem])

theorem temp_path_ne {p : Path} (h : validate_path p = .ok ()) : temp_path p ≠ p := by
  intro he
  exact validate_no_btick h (he ▸ btick_mem_temp p)

/-!  Permission-resolver lemmas. -/

theorem checkPermAux_root (get : Path → Option FileInfo) (acl : FileInfo → List Principal)
    (π : Principal) (fuel : Nat) (fi : Option FileInfo) :
    checkPermAux get acl π (fuel + 1) ROOT fi = localAcl acl π fi := by
  simp [checkPermAux]

theorem checkPermAux_succ (get : Path → Option FileInfo) (acl : FileInfo → List Principal)
    (π : Principal) (f : Nat) (path : Path) (fi : Option FileInfo) :
    checkPermAux get acl π (f + 1) path fi =
      (localAcl acl π fi
        || (if path = ROOT then false
            else checkPermAux get acl π f (parentForCheck path) (get (parentForCheck path)))) :=
  rfl

theorem checkPermAux_fuel_eq (get : Path → Option FileInfo) (acl : FileInfo → List Principal)
    (π : Principal) :
    ∀ fuel path fi, permFuel path ≤ fuel →
      checkPermAux get acl π fuel path fi = checkPermAux get acl π (permFuel path) path fi := by
  intro fuel
  induction fuel using Nat.strong_induction_on with
  | _ fuel ih =>
    intro path fi hle
    have h4 : 4 ≤ permFuel path := Nat.le_add_left 4 path.length
    obtain ⟨f, rfl⟩ : ∃ f, fuel = f + 1 := ⟨fuel - 1, by omega⟩
    rw [show permFuel path = (path.length + 3) + 1 from rfl]
    rw [checkPermAux_succ, checkPermAux_succ]
    by_cases hroot : path = ROOT
    · simp [hroot]
    · rw [if_neg hroot, if_neg hroot]
      congr 1
      rcases hr : rfindSlash path with _ | i
      · have hpp : parentForCheck path = ROOT := by simp [parentForCheck, hr]
        rw [hpp]
        obtain ⟨f', rfl⟩ : ∃ f', f = f' + 1 := ⟨f - 1, by simp [permFuel] at hle; omega⟩
        rw [show path.length + 3 = (path.length + 2) + 1 from rfl]
        rw [checkPermAux_root, checkPermAux_root]
      · have hpp : parentForCheck path = path.take i := by simp [parentForCheck, hr]
        rw [hpp]
        have hi := rfindSlash_lt_length hr
        have hlen : (path.take i).length = i := by
          simp only [List.length_take]
          omega
        have hp1 : permFuel (path.take i) ≤ f := by
          simp only [permFuel, hlen]
          simp only [permFuel] at hle
          omega
        have hp2 : permFuel (path.take i) ≤ path.length + 3 := by
          simp only [permFuel, hlen]
          omega
        rw [ih f (by omega) _ _ hp1,
            ih (path.length + 3) (by simp only [permFuel] at hle; omega) _ _ hp2]

theorem checkPermAux_unfold (get : Path → Option FileInfo) (acl : FileInfo → List Principal)
    (π : Principal) (path : Path) (fi : Option FileInfo) :
    checkPermAux get acl π (permFuel path) path fi =
      (localAcl acl π fi
        || (if path = ROOT then false
            else
              checkPermAux get acl π (permFuel (parentForCheck path)) (parentForCheck path)
                (get (parentForCheck path)))) := by
  rw [show permFuel path = (path.length + 3) + 1 from rfl, checkPermAux_succ]
  by_cases hroot : path = ROOT
  · simp [hroot]
  · rw [if_neg hroot, if_neg hroot]
    congr 1
    rcases hr : rfindSlash path with _ | i
    · have hpp : parentForCheck path = ROOT := by simp [parentForCheck, hr]
      rw [hpp, show path.length + 3 = (path.length + 2) + 1 from rfl, checkPermAux_root,
          show permFuel ROOT = 4 + 1 from rfl, checkPermAux_root]
    · have hpp : parentForCheck path = path.take i := by simp [parentForCheck, hr]
      rw [hpp]
      have hi := rfindSlash_lt_length hr
      have hlen : (path.take i).length = i := by
        simp only [List.length_take]
        omega
      have hp2 : permFuel (path.take i) ≤ path.length + 3 := by
        simp only [permFuel, hlen]
        omega
      rw [checkPermAux_fuel_eq get acl π (path.length + 3) _ _ hp2]

theorem localAcl_true_iff (acl : FileInfo → List Principal) (π : Principal)
    (fi : Option FileInfo) :
    localAcl acl π fi = true ↔ ∃ info, fi = some info ∧ π ∈ acl info := by
  cases fi with
  | none => simp [localAcl]
  | some info => simp [localAcl, List.any_eq_true]

theorem checkPermAux_true_imp (get : Path → Option FileInfo)
    (acl : FileInfo → List Principal) (π : Principal) :
    ∀ fuel path, checkPermAux get acl π fuel path (get path) = true →
      ∃ q, Ancestor path q ∧ localAcl acl π (get q) = true := by
  intro fuel
  induction fuel with
  | zero =>
    intro path h
    simp [checkPermAux] at h
  | succ f ih =>
    intro path h
    rw [checkPermAux_succ] at h
    rcases (Bool.or_eq_true _ _).mp h with h | h
    · exact ⟨path, Ancestor.refl path, h⟩
    · by_cases hroot : path = ROOT
      · rw [if_pos hroot] at h
        simp at h
      · rw [if_neg hroot] at h
        obtain ⟨q, hq, hl⟩ := ih (parentForCheck path) h
        exact ⟨q, Ancestor.step hroot hq, hl⟩

theorem checkPerm_of_ancestor (get : Path → Option FileInfo)
    (acl : FileInfo → List Principal) (π : Principal) :
    ∀ {path q : Path}, Ancestor path q → localAcl acl π (get q) = true →
      checkPermAux get acl π (permFuel path) path (get path) = true := by
  intro path q hanc
  induction hanc with
  | refl p =>
    intro hl
    rw [checkPermAux_unfold]
    simp [hl]
  | step hroot hsub ih =>
    intro hl
    rw [checkPermAux_unfold]
    rename_i p q'
    rw [if_neg hroot]
    simp [ih hl]

theorem checkPerm_true_iff (get : Path → Option FileInfo)
    (acl : FileInfo → List Principal) (π : Principal) (path : Path) :
    checkPermAux get acl π (permFuel path) path (get path) = true ↔
      ∃ q, Ancestor path q ∧ localAcl acl π (get q) = true :=
  ⟨checkPermAux_true_imp get acl π (permFuel path) path,
   fun h => checkPerm_of_ancestor get acl π h.choose_spec.1 h.choose_spec.2⟩

/-!  Assembly-loop lemmas for `commit_upload`. -/

theorem countP_lt_of_mem {ks : List Nat} {i j : Nat} (hmem : i ∈ ks) (hij : i < j) :
    ks.countP (fun k => decide (j ≤ k)) < ks.countP (fun k => decide (i ≤ k)) := by
  induction ks with
  | nil => simp at hmem
  | cons a rest ih =>
    have hmono : rest.countP (fun k => decide (j ≤ k)) ≤
        rest.countP (fun k => decide (i ≤ k)) := by
      apply List.countP_mono_left
      intro x _ hjx
      simp only [decide_eq_true_eq] at hjx ⊢
      omega
    rcases List.mem_cons.mp hmem with ha | ha
    · subst ha
      simp only [List.countP_cons, decide_eq_true_eq]
      rw [if_neg (by omega), if_pos (by omega)]
      omega
    · have := ih ha
      simp only [List.countP_cons, decide_eq_true_eq]
      by_cases h1 : j ≤ a
      · rw [if_pos h1, if_pos (by omega)]
        omega
      · rw [if_neg h1]
        split <;> omega

theorem commitLoop_invalidSize_iff (H : List Nat → Digest)
    (chunks : List (Nat × List Nat)) (size : Nat) (sha : Option Digest)
    (hne : ∀ kv ∈ chunks, kv.2 ≠ ([] : List Nat)) :
    ∀ fuel index acc,
      (chunks.map Prod.fst).countP (fun k => decide (index ≤ k)) < fuel →
      ((∃ acc', commitLoop H chunks size sha fuel index acc = .invalidSize acc') ↔
        ∃ i, ReachFrom chunks index i ∧ alookup chunks i = none ∧ i ≠ size) := by
  intro fuel
  induction fuel with
  | zero =>
    intro index acc h
    omega
  | succ f ih =>
    intro index acc hcount
    rcases hl : alookup chunks index with _ | d
    · by_cases hsz : index = size
      · subst hsz
        constructor
        · rintro ⟨acc', hres⟩
          rcases sha with _ | g
          · simp [commitLoop, hl] at hres
          · by_cases hg : g = H acc
            · simp [commitLoop, hl, hg] at hres
            · simp [commitLoop, hl, hg] at hres
        · rintro ⟨i, hreach, hnone, hne'⟩
          cases hreach with
          | refl => exact (hne' rfl).elim
          | step hstep _ => rw [hl] at hstep; cases hstep
      · constructor
        · rintro _
          exact ⟨index, ReachFrom.refl index, hl, hsz⟩
        · rintro _
          refine ⟨acc, ?_⟩
          simp only [commitLoop, hl]
          rw [if_pos (by exact hsz)]
    · have hkd : (index, d) ∈ chunks := alookup_mem hl
      have hdne : d ≠ [] := hne (index, d) hkd
      have hdlen : 0 < d.length := List.length_pos.mpr hdne
      have hk : index ∈ chunks.map Prod.fst := alookup_mem_keys hl
      have hcount' :
          (chunks.map Prod.fst).countP (fun k => decide (index + d.length ≤ k)) < f := by
        have := countP_lt_of_mem hk (show index < index + d.length by omega)
        omega
      have hstep : commitLoop H chunks size sha (f + 1) index acc =
          commitLoop H chunks size sha f (index + d.length) (acc ++ d) := by
        simp [commitLoop, hl]
      rw [hstep, ih (index + d.length) (acc ++ d) hcount']
      constructor
      · rintro ⟨i, h1, h2, h3⟩
        exact ⟨i, ReachFrom.step hl h1, h2, h3⟩
      · rintro ⟨i, hreach, hnone, hne'⟩
        cases hreach with
        | refl => rw [hl] at hnone; cases hnone
        | step hstep' hrest =>
          rw [hl] at hstep'
          injection hstep' with hd
          subst hd
          exact ⟨i, hrest, hnone, hne'⟩

theorem commitLoop_invalidHash_iff (H : List Nat → Digest)
    (chunks : List (Nat × List Nat)) (size : Nat) (sha : Option Digest)
    (hne : ∀ kv ∈ chunks, kv.2 ≠ ([] : List Nat)) :
    ∀ fuel index acc,
      (chunks.map Prod.fst).countP (fun k => decide (index ≤ k)) < fuel →
      ((∃ acc', commitLoop H chunks size sha fuel index acc = .invalidHash acc') ↔
        ∃ rest, AsmFrom chunks size index rest ∧
          ∃ g, sha = some g ∧ g ≠ H (acc ++ rest)) := by
  intro fuel
  induction fuel with
  | zero =>
    intro index acc h
    omega
  | succ f ih =>
    intro index acc hcount
    rcases hl : alookup chunks index with _ | d
    · by_cases hsz : index = size
      · subst hsz
        rcases sha with _ | g
        · constructor
          · rintro ⟨acc', hres⟩
            simp [commitLoop, hl] at hres
          · rintro ⟨rest, _, g, hg, _⟩
            cases hg
        · by_cases hg : g = H acc
          · constructor
            · rintro ⟨acc', hres⟩
              simp [commitLoop, hl, hg] at hres
            · rintro ⟨rest, hasm, g', hg', hgne⟩
              injection hg' with hg'
              subst hg'
              cases hasm with
              | done _ _ =>
                exact absurd hgne (by simpa using hg)
              | cons hstep _ => rw [hl] at hstep; cases hstep
          · constructor
            · rintro _
              refine ⟨[], AsmFrom.done hl rfl, g, rfl, ?_⟩
              simpa using hg
            · rintro _
              refine ⟨acc, ?_⟩
              simp [commitLoop, hl, hg]
      · constructor
        · rintro ⟨acc', hres⟩
          simp only [commitLoop, hl] at hres
          rw [if_pos (by exact hsz)] at hres
          simp at hres
        · rintro ⟨rest, hasm, _⟩
          cases hasm with
          | done _ h => exact (hsz h).elim
          | cons hstep _ => rw [hl] at hstep; cases hstep
    · have hkd : (index, d) ∈ chunks := alookup_mem hl
      have hdne : d ≠ [] := hne (index, d) hkd
      have hdlen : 0 < d.length := List.length_pos.mpr hdne
      have hk : index ∈ chunks.map Prod.fst := alookup_mem_keys hl
      have hcount' :
          (chunks.map Prod.fst).countP (fun k => decide (index + d.length ≤ k)) < f := by
        have := countP_lt_of_mem hk (show index < index + d.length by omega)
        omega
      have hstep : commitLoop H chunks size sha (f + 1) index acc =
          commitLoop H chunks size sha f (index + d.length) (acc ++ d) := by
        simp [commitLoop, hl]
      rw [hstep, ih (index + d.length) (acc ++ d) hcount']
      constructor
      · rintro ⟨rest, hasm, g, hg, hgne⟩
        refine ⟨d ++ rest, AsmFrom.cons hl hasm, g, hg, ?_⟩
        rw [← List.append_assoc]
        exact hgne
      · rintro ⟨rest', hasm, g, hg, hgne⟩
        cases hasm with
        | done hstep' _ => rw [hl] at hstep'; cases hstep'
        | cons hstep' hrest =>
          rw [hl] at hstep'
          injection hstep' with hd
          subst hd
          rename_i rest
          refine ⟨rest, hrest, g, hg, ?_⟩
          rw [List.append_assoc]
          exact hgne

/-!  Session-size bookkeeping lemmas. -/

theorem alookup_length_le_chunkSum {l : List (Nat × List Nat)} {k : Nat} {v : List Nat}
    (h : alookup l k = some v) : v.length ≤ chunkSum l := by
  induction l with
  | nil => simp [alookup] at h
  | cons kv rest ih =>
    by_cases hkv : kv.1 = k
    · simp only [alookup, if_pos hkv] at h
      injection h with h2
      simp [chunkSum, List.map_cons, List.sum_cons, ← h2]
    · simp only [alookup, if_neg hkv] at h
      have := ih h
      simp only [chunkSum, List.map_cons, List.sum_cons] at this ⊢
      omega

theorem chunkSum_ainsert_none {l : List (Nat × List Nat)} {k : Nat} {d : List Nat}
    (h : alookup l k = none) :
    chunkSum (ainsert k d l) = chunkSum l + d.length := by
  induction l with
  | nil => simp [ainsert, chunkSum]
  | cons kv rest ih =>
    by_cases hkv : kv.1 = k
    · simp [alookup, hkv] at h
    · simp only [alookup, if_neg hkv] at h
      simp only [ainsert, if_neg hkv, chunkSum, List.map_cons, List.sum_cons] at ih ⊢
      rw [ih h]
      omega

theorem chunkSum_ainsert_some {l : List (Nat × List Nat)} {k : Nat} {d old : List Nat}
    (hnd : keysNodup l) (h : alookup l k = some old) :
    chunkSum (ainsert k d l) = chunkSum l - old.length + d.length := by
  induction l with
  | nil => simp [alookup] at h
  | cons kv rest ih =>
    simp only [keysNodup, List.map_cons, List.nodup_cons] at hnd
    by_cases hkv : kv.1 = k
    · simp only [alookup, if_pos hkv] at h
      injection h with h2
      simp only [ainsert, if_pos hkv, chunkSum, List.map_cons, List.sum_cons, ← h2]
      omega
    · simp only [alookup, if_neg hkv] at h
      have hold := alookup_length_le_chunkSum h
      have := ih hnd.2 h
      simp only [ainsert, if_neg hkv, chunkSum, List.map_cons, List.sum_cons] at this ⊢
      simp only [chunkSum] at hold
      omega

/-!  Binary-search and ACL-set lemmas. -/

theorem sorted_take_le {l : List Nat} {m : Nat} (hs : l.Sorted (· ≤ ·)) (hm : m < l.length)
    {b : Nat} (hb : b ∈ l.take (m + 1)) : b ≤ l.getD m 0 := by
  rw [List.getD_eq_getElem l 0 hm]
  obtain ⟨i, hi, hib⟩ := List.mem_iff_getElem.mp hb
  have hi2 : i < min (m + 1) l.length := by simpa [List.length_take] using hi
  have hi' : i < l.length := by omega
  have him : i ≤ m := by omega
  rw [List.getElem_take] at hib
  rcases Nat.lt_or_ge i m with hlt | hge
  · rw [← hib]
    exact List.pairwise_iff_getElem.mp hs i m hi' hm hlt
  · have hieq : i = m := by omega
    subst hieq
    exact le_of_eq hib.symm

theorem sorted_drop_ge {l : List Nat} {m : Nat} (hs : l.Sorted (· ≤ ·)) (hm : m < l.length)
    {b : Nat} (hb : b ∈ l.drop m) : l.getD m 0 ≤ b := by
  rw [List.getD_eq_getElem l 0 hm]
  obtain ⟨i, hi, hib⟩ := List.mem_iff_getElem.mp hb
  have hi2 : i < l.length - m := by simpa [List.length_drop] using hi
  have hi' : m + i < l.length := by omega
  rw [List.getElem_drop] at hib
  rcases Nat.eq_zero_or_pos i with h0 | hpos
  · subst h0
    simp only [Nat.add_zero] at hib
    exact le_of_eq hib
  · rw [← hib]
    exact List.pairwise_iff_getElem.mp hs m (m + i) hm hi' (by omega)

theorem bsearchAux_mem {t : Nat} :
    ∀ {fuel : Nat} {l : List Nat} {i : Nat}, bsearchAux t fuel l = some i → t ∈ l := by
  intro fuel
  induction fuel with
  | zero =>
    intro l i h
    simp [bsearchAux] at h
  | succ f ih =>
    intro l i h
    rcases l with _ | ⟨a, rest⟩
    · simp [bsearchAux] at h
    · simp only [bsearchAux] at h
      by_cases h1 : (a :: rest).getD ((a :: rest).length / 2) 0 < t
      · rw [if_pos h1] at h
        rcases hmap : bsearchAux t f ((a :: rest).drop ((a :: rest).length / 2 + 1)) with _ | j
        · rw [hmap] at h
          simp at h
        · exact List.mem_of_mem_drop (ih hmap)
      · rw [if_neg h1] at h
        by_cases h2 : t < (a :: rest).getD ((a :: rest).length / 2) 0
        · rw [if_pos h2] at h
          exact List.mem_of_mem_take (ih h)
        · rw [if_neg h2] at h
          have hmid : (a :: rest).length / 2 < (a :: rest).length :=
            Nat.div_lt_self (by simp) (by omega)
          have hx : (a :: rest).getD ((a :: rest).length / 2) 0 = t := by omega
          rw [← hx, List.getD_eq_getElem _ 0 hmid]
          exact List.getElem_mem hmid

theorem bsearchAux_complete {t : Nat} :
    ∀ {fuel : Nat} {l : List Nat}, l.length < fuel → l.Sorted (· ≤ ·) → t ∈ l →
      (bsearchAux t fuel l).isSome = true := by
  intro fuel
  induction fuel with
  | zero =>
    intro l h _ _
    omega
  | succ f ih =>
    intro l hlen hs hmem
    rcases l with _ | ⟨a, rest⟩
    · simp at hmem
    · simp only [bsearchAux]
      have hmid : (a :: rest).length / 2 < (a :: rest).length :=
        Nat.div_lt_self (by simp) (by omega)
      by_cases h1 : (a :: rest).getD ((a :: rest).length / 2) 0 < t
      · rw [if_pos h1]
        have hmem' : t ∈ (a :: rest).drop ((a :: rest).length / 2 + 1) := by
          have hsplit := List.take_append_drop ((a :: rest).length / 2 + 1) (a :: rest)
          rcases List.mem_append.mp (by rw [hsplit]; exact hmem) with hin | hin
          · exact absurd (sorted_take_le hs hmid hin) (by omega)
          · exact hin
        have hlen' : ((a :: rest).drop ((a :: rest).length / 2 + 1)).length < f := by
          simp only [List.length_drop]
          simp only [List.length_cons] at hlen hmid ⊢
          omega
        have hs' : ((a :: rest).drop ((a :: rest).length / 2 + 1)).Sorted (· ≤ ·) :=
          hs.sublist (List.drop_sublist _ _)
        have := ih hlen' hs' hmem'
        simpa using this
      · rw [if_neg h1]
        by_cases h2 : t < (a :: rest).getD ((a :: rest).length / 2) 0
        · rw [if_pos h2]
          have hmem' : t ∈ (a :: rest).take ((a :: rest).length / 2) := by
            have hsplit := List.take_append_drop ((a :: rest).length / 2) (a :: rest)
            rcases List.mem_append.mp (by rw [hsplit]; exact hmem) with hin | hin
            · exact hin
            · exact absurd (sorted_drop_ge hs hmid hin) (by omega)
          have hlen' : ((a :: rest).take ((a :: rest).length / 2)).length < f := by
            simp only [List.length_take]
            simp only [List.length_cons] at hlen hmid ⊢
            omega
          have hs' : ((a :: rest).take ((a :: rest).length / 2)).Sorted (· ≤ ·) :=
            hs.sublist (List.take_sublist _ _)
          exact ih hlen' hs' hmem'
        · rw [if_neg h2]
          simp

theorem binary_search_mem {l : List Nat} {t i : Nat} (h : binary_search l t = some i) :
    t ∈ l :=
  bsearchAux_mem h

theorem binary_search_isSome {l : List Nat} {t : Nat} (hs : l.Sorted (· ≤ ·)) (hmem : t ∈ l) :
    (binary_search l t).isSome = true :=
  bsearchAux_complete (by omega) hs hmem

theorem strictSorted_nodup {l : List Principal} (h : StrictSorted l) : l.Nodup :=
  h.imp (fun hlt => Nat.ne_of_lt hlt)

theorem strictSorted_le {l : List Principal} (h : StrictSorted l) : l.Sorted (· ≤ ·) :=
  h.imp (fun hlt => Nat.le_of_lt hlt)

theorem strictSorted_of_le_nodup {l : List Principal} (hs : l.Sorted (· ≤ ·))
    (hnd : l.Nodup) : StrictSorted l := by
  induction l with
  | nil => simp [StrictSorted]
  | cons a rest ih =>
    rw [List.sorted_cons] at hs
    rw [List.nodup_cons] at hnd
    refine List.Pairwise.cons ?_ (ih hs.2 hnd.2)
    intro b hb
    exact Nat.lt_of_le_of_ne (hs.1 b hb) (fun he => hnd.1 (he ▸ hb))

theorem aclInsert_of_mem {l : List Principal} {p : Principal} (hs : l.Sorted (· ≤ ·))
    (hmem : p ∈ l) : aclInsert l p = l := by
  rcases hb : binary_search l p with _ | i
  · have := binary_search_isSome hs hmem
    rw [hb] at this
    simp at this
  · simp [aclInsert, hb]

theorem aclInsert_of_not_mem {l : List Principal} {p : Principal} (hnm : p ∉ l) :
    aclInsert l p = List.insertionSort (· ≤ ·) (l ++ [p]) := by
  rcases hb : binary_search l p with _ | i
  · simp [aclInsert, hb]
  · exact absurd (binary_search_mem hb) hnm

theorem aclRemove_of_not_mem {l : List Principal} {p : Principal} (hnm : p ∉ l) :
    aclRemove l p = l := by
  rcases hb : binary_search l p with _ | i
  · simp [aclRemove, hb]
  · exact absurd (binary_search_mem hb) hnm

theorem mem_aclInsert_of_mem {l : List Principal} {p x : Principal} (hx : x ∈ l) :
    x ∈ aclInsert l p := by
  rcases hb : binary_search l p with _ | i
  · simp only [aclInsert, hb]
    rw [List.mem_insertionSort]
    exact List.mem_append.mpr (Or.inl hx)
  · simpa [aclInsert, hb] using hx

theorem strictSorted_aclInsert {l : List Principal} {p : Principal}
    (h : StrictSorted l) : StrictSorted (aclInsert l p) := by
  by_cases hmem : p ∈ l
  · rw [aclInsert_of_mem (strictSorted_le h) hmem]
    exact h
  · rw [aclInsert_of_not_mem hmem]
    have hsorted : (List.insertionSort (· ≤ ·) (l ++ [p])).Sorted (· ≤ ·) :=
      List.sorted_insertionSort _ _
    have hperm : List.Perm (List.insertionSort (· ≤ ·) (l ++ [p])) (l ++ [p]) :=
      List.perm_insertionSort _ _
    have hnd : (l ++ [p]).Nodup := by
      rw [List.nodup_append]
      exact ⟨strictSorted_nodup h, List.nodup_singleton p, by simpa using hmem⟩
    exact strictSorted_of_le_nodup hsorted (hperm.nodup_iff.mpr hnd)

theorem count_aclInsert_not_mem {l : List Principal} {p : Principal} (hnm : p ∉ l) :
    (aclInsert l p).count p = 1 := by
  rw [aclInsert_of_not_mem hnm, (List.perm_insertionSort _ _).count_eq,
      List.count_append, List.count_eq_zero_of_not_mem hnm]
  simp [List.count_cons]

theorem count_aclInsert_mem {l : List Principal} {p : Principal} (hs : StrictSorted l)
    (hmem : p ∈ l) : (aclInsert l p).count p = 1 := by
  rw [aclInsert_of_mem (strictSorted_le hs) hmem]
  have h1 : 1 ≤ l.count p := List.one_le_count_iff.mpr hmem
  have h2 : l.count p ≤ 1 := List.nodup_iff_count_le_one.mp (strictSorted_nodup hs) p
  omega

theorem strictSorted_aclRemove {l : List Principal} {p : Principal}
    (h : StrictSorted l) : StrictSorted (aclRemove l p) := by
  rcases hb : binary_search l p with _ | i
  · simpa [aclRemove, hb] using h
  · simp only [aclRemove, hb]
    exact h.sublist (List.eraseIdx_sublist l i)

theorem checkPerm_mono (get get' : Path → Option FileInfo)
    (acl : FileInfo → List Principal) (π : Principal) (path : Path)
    (hmono : ∀ q, Ancestor path q →
      localAcl acl π (get q) = true → localAcl acl π (get' q) = true)
    (h : checkPermAux get acl π (permFuel path) path (get path) = true) :
    checkPermAux get' acl π (permFuel path) path (get' path) = true := by
  obtain ⟨q, hq, hl⟩ := (checkPerm_true_iff get acl π path).mp h
  exact (checkPerm_true_iff get' acl π path).mpr ⟨q, hq, hmono q hq hl⟩

theorem alookup_filter_some {α β : Type} [DecidableEq α] {p : α × β → Bool}
    {l : List (α × β)} {k : α} {v : β} (h : alookup (l.filter p) k = some v) :
    p (k, v) = true :=
  (List.mem_filter.mp (alookup_mem h)).2

/-!  Helper lemmas about `load`, `get_info` and `set_file_info`. -/

theorem get_file_info_set_self (s : St) (path : Path) (info : FileInfo) :
    get_file_info (set_file_info s path info) path = some info := by
  simp only [get_file_info, set_file_info]
  exact alookup_ainsert_self _ _ _

theorem get_file_info_set_ne (s : St) {path q : Path} (info : FileInfo) (h : path ≠ q) :
    get_file_info (set_file_info s path info) q = get_file_info s q := by
  simp only [get_file_info, set_file_info]
  exact alookup_ainsert_ne _ _ h

theorem load_spec (s : St) (caller : Principal) (path : Path) (start_at : Nat)
    (info : FileInfo) (content : List Nat)
    (hv : validate_path path = .ok ())
    (hperm : check_read_permission (get_file_info s) caller path (get_file_info s path) = true)
    (hinfo : get_file_info s path = some info)
    (hcontent : alookup s.fs path = some content) :
    ∃ dl, load s caller path start_at = .ok dl
      ∧ dl.size = info.size
      ∧ dl.chunk = (content.drop start_at).take (min MAX_READ_SIZE (content.length - start_at))
      ∧ dl.downloaded_at = start_at + dl.chunk.length
      ∧ dl.chunk.length ≤ MAX_READ_SIZE
      ∧ dl.sha256 = (if dl.downloaded_at = info.size then info.sha256 else none) := by
  have hchunklen :
      ((content.drop start_at).take (min MAX_READ_SIZE (content.length - start_at))).length
        = min MAX_READ_SIZE (content.length - start_at) := by
    simp only [List.length_take, List.length_drop]
    omega
  simp only [load, hv]
  rw [if_neg (by simp [hperm])]
  simp only [hinfo, hcontent]
  refine ⟨_, rfl, rfl, rfl, ?_, ?_, ?_⟩
  · rw [hchunklen]
  · rw [hchunklen]
    exact Nat.min_le_left _ _
  · simp only [hchunklen]
    by_cases hds : info.size = start_at + min MAX_READ_SIZE (content.length - start_at)
    · rw [if_pos hds, if_pos hds.symm]
    · rw [if_neg hds, if_neg (fun he => hds he.symm)]

theorem get_info_spec (s : St) (caller : Principal) (path : Path) (info : FileInfo)
    (hv : validate_path path = .ok ())
    (hperm : check_read_permission (get_file_info s) caller path (get_file_info s path) = true)
    (hinfo : get_file_info s path = some info) :
    get_info s caller path =
      .ok { size := info.size, creator := info.creator, created_at := info.created_at,
            updater := info.updater, updated_at := info.updated_at,
            mimetype := info.mimetype, sha256 := info.sha256 } := by
  simp only [get_info, hv]
  rw [if_neg (by simp [hperm])]
  simp only [hinfo]

theorem checkPerm_claim_parts (get : Path → Option FileInfo)
    (acl : FileInfo → List Principal) (π : Principal) :
    (∀ path, checkPermAux get acl π (permFuel path) path (get path) = true ↔
       ((∃ info, get path = some info ∧ π ∈ acl info)
        ∨ (path ≠ ROOT ∧ checkPermAux get acl π (permFuel (parentForCheck path))
            (parentForCheck path) (get (parentForCheck path)) = true)))
    ∧ (∀ path q, Ancestor path q → (∃ info, get q = some info ∧ π ∈ acl info) →
        checkPermAux get acl π (permFuel path) path (get path) = true)
    ∧ ((∀ info, get ROOT = some info → π ∉ acl info) →
        checkPermAux get acl π (permFuel ROOT) ROOT (get ROOT) = false) := by
  refine ⟨?_, ?_, ?_⟩
  · intro path
    rw [checkPermAux_unfold]
    simp only [Bool.or_eq_true]
    rw [localAcl_true_iff]
    by_cases hroot : path = ROOT
    · subst hroot
      rw [if_pos rfl]
      constructor
      · rintro (h | h)
        · exact Or.inl h
        · exact (Bool.false_ne_true h).elim
      · rintro (h | ⟨hne, _⟩)
        · exact Or.inl h
        · exact absurd rfl hne
    · rw [if_neg hroot]
      constructor
      · rintro (h | h)
        · exact Or.inl h
        · exact Or.inr ⟨hroot, h⟩
      · rintro (h | ⟨_, h⟩)
        · exact Or.inl h
        · exact Or.inr h
  · intro path q hanc hgrant
    exact checkPerm_of_ancestor get acl π hanc ((localAcl_true_iff acl π (get q)).mpr hgrant)
  · intro hno
    rw [show permFuel ROOT = 4 + 1 from rfl, checkPermAux_root]
    rcases hg : get ROOT with _ | info
    · rfl
    · have hnm := hno info hg
      simp only [localAcl, List.any_eq_false]
      intro x hx
      simp only [beq_iff_eq, beq_eq_false_iff_ne, ne_eq]
      intro he
      exact hnm (he ▸ hx)

theorem count_aclInsert {l : List Principal} {p : Principal} (hs : StrictSorted l) :
    (aclInsert l p).count p = 1 := by
  by_cases hmem : p ∈ l
  · exact count_aclInsert_mem hs hmem
  · exact count_aclInsert_not_mem hmem

theorem set_file_info_no_op {s : St} {path : Path} {info : FileInfo}
    (h : get_file_info s path = some info) : set_file_info s path info = s := by
  simp only [get_file_info] at h
  simp only [set_file_info]
  rw [ainsert_no_op h]

theorem add_permission_spec (s : St) (caller : Principal) (path : Path) (π : Principal)
    (info : FileInfo)
    (hval : validate_path path = .ok ())
    (hinfo : get_file_info s path = some info)
    (hperm : check_manage_permission (get_file_info s) caller path (get_file_info s path)
      = true) :
    add_permission s caller path π true true true =
      .ok (set_file_info s path
        { info with manageable := aclInsert info.manageable π,
                    readable := aclInsert info.readable π,
                    writable := aclInsert info.writable π }) := by
  rw [hinfo] at hperm
  simp only [add_permission, hval, hinfo]
  rw [if_neg (by simp [hperm])]
  simp

theorem remove_permission_spec (s : St) (caller : Principal) (path : Path) (π : Principal)
    (info : FileInfo)
    (hval : validate_path path = .ok ())
    (hinfo : get_file_info s path = some info)
    (hperm : check_manage_permission (get_file_info s) caller path (get_file_info s path)
      = true) :
    remove_permission s caller path π true true true =
      .ok (set_file_info s path
        { info with manageable := aclRemove info.manageable π,
                    readable := aclRemove info.readable π,
                    writable := aclRemove info.writable π }) := by
  rw [hinfo] at hperm
  simp only [remove_permission, hval, hinfo]
  rw [if_neg (by simp [hperm])]
  simp

/-!  Claim theorems. -/

/-- C2: for every principal, path and capability, the permission check
returns true iff the path's own metadata lists the principal in the
corresponding ACL, or the path is not the root and the check holds for the
parent; a grant at any ancestor on the walk authorizes every descendant,
and at the root with no local grant the check returns false. -/
theorem claim_C2 (get : Path → Option FileInfo) (π : Principal) :
    (∀ path,
      (check_manage_permission get π path (get path) = true ↔
        ((∃ info, get path = some info ∧ π ∈ info.manageable)
          ∨ (path ≠ ROOT ∧ check_manage_permission get π (parentForCheck path)
              (get (parentForCheck path)) = true)))
      ∧ (check_read_permission get π path (get path) = true ↔
        ((∃ info, get path = some info ∧ π ∈ info.readable)
          ∨ (path ≠ ROOT ∧ check_read_permission get π (parentForCheck path)
              (get (parentForCheck path)) = true)))
      ∧ (check_write_permission get π path (get path) = true ↔
        ((∃ info, get path = some info ∧ π ∈ info.writable)
          ∨ (path ≠ ROOT ∧ check_write_permission get π (parentForCheck path)
              (get (parentForCheck path)) = true))))
    ∧ (∀ path q, Ancestor path q →
        ((∃ info, get q = some info ∧ π ∈ info.manageable) →
          check_manage_permission get π path (get path) = true)
        ∧ ((∃ info, get q = some info ∧ π ∈ info.readable) →
          check_read_permission get π path (get path) = true)
        ∧ ((∃ info, get q = some info ∧ π ∈ info.writable) →
          check_write_permission get π path (get path) = true))
    ∧ (((∀ info, get ROOT = some info → π ∉ info.manageable) →
          check_manage_permission get π ROOT (get ROOT) = false)
        ∧ ((∀ info, get ROOT = some info → π ∉ info.readable) →
          check_read_permission get π ROOT (get ROOT) = false)
        ∧ ((∀ info, get ROOT = some info → π ∉ info.writable) →
          check_write_permission get π ROOT (get ROOT) = false)) := by
  refine ⟨fun path => ⟨?_, ?_, ?_⟩, fun path q hanc => ⟨?_, ?_, ?_⟩, ?_, ?_, ?_⟩
  · exact (checkPerm_claim_parts get FileInfo.manageable π).1 path
  · exact (checkPerm_claim_parts get FileInfo.readable π).1 path
  · exact (checkPerm_claim_parts get FileInfo.writable π).1 path
  · exact (checkPerm_claim_parts get FileInfo.manageable π).2.1 path q hanc
  · exact (checkPerm_claim_parts get FileInfo.readable π).2.1 path q hanc
  · exact (checkPerm_claim_parts get FileInfo.writable π).2.1 path q hanc
  · exact (checkPerm_claim_parts get FileInfo.manageable π).2.2
  · exact (checkPerm_claim_parts get FileInfo.readable π).2.2
  · exact (checkPerm_claim_parts get FileInfo.writable π).2.2

theorem claim_C2_witness :
    check_read_permission (get_file_info s0) 0 pDA (get_file_info s0 pDA) = true
    ∧ check_read_permission (get_file_info s0) 5 ROOT (get_file_info s0 ROOT) = false :=
  have anc : Ancestor pDA ROOT :=
    Ancestor.step (by decide)
      (Ancestor.step (by decide) (Ancestor.step (by decide) (Ancestor.refl ROOT)))
  ⟨((claim_C2 (get_file_info s0) 0).2.1 pDA ROOT anc).2.1 ⟨rootInfo, rfl, by decide⟩,
   (claim_C2 (get_file_info s0) 5).2.2.2.1
     (fun info hinfo => by cases hinfo; decide)⟩

/-- C5: for every readable existing file `p` and every start offset
`start_at`, a successful `load(p, start_at)` returns `downloaded_at` equal
to `start_at` plus the number of bytes actually read (at most 1 MiB), and
the returned `sha256` equals the metadata digest when `downloaded_at`
equals the metadata size and is absent otherwise. -/
theorem claim_C5 (s : St) (caller : Principal) (path : Path) (start_at : Nat)
    (info : FileInfo) (content : List Nat)
    (hv : validate_path path = .ok ())
    (hperm : check_read_permission (get_file_info s) caller path (get_file_info s path) = true)
    (hinfo : get_file_info s path = some info)
    (hcontent : alookup s.fs path = some content) :
    ∃ dl, load s caller path start_at = .ok dl
      ∧ dl.size = info.size
      ∧ dl.chunk = (content.drop start_at).take (min MAX_READ_SIZE (content.length - start_at))
      ∧ dl.downloaded_at = start_at + dl.chunk.length
      ∧ dl.chunk.length ≤ MAX_READ_SIZE
      ∧ dl.sha256 = (if dl.downloaded_at = info.size then info.sha256 else none) :=
  load_spec s caller path start_at info content hv hperm hinfo hcontent

theorem claim_C5_witness :
    ∃ dl, load sC1 0 pDA 1 = .ok dl
      ∧ dl.size = (3 : Nat)
      ∧ dl.chunk = (([1, 2, 3] : List Nat).drop 1).take (min MAX_READ_SIZE (([1, 2, 3] : List Nat).length - 1))
      ∧ dl.downloaded_at = 1 + dl.chunk.length
      ∧ dl.chunk.length ≤ MAX_READ_SIZE
      ∧ dl.sha256 = (if dl.downloaded_at = (3 : Nat) then some [1, 2, 3] else none) := by
  have h := claim_C5 sC1 0 pDA 1
    { size := 3, creator := 0, created_at := 5, updater := 0, updated_at := 5,
      mimetype := "text/plain", manageable := [], readable := [], writable := [],
      sha256 := some [1, 2, 3], signature := none }
    [1, 2, 3] rfl (by decide) rfl rfl
  exact h

/-- C6: the session `size` field always equals the sum of the buffered
chunk lengths: a successful `send_data(p, start, data)` adds `len(data)`,
subtracts the replaced chunk's length when offset `start` was already
buffered, bumps `updated_at`, and returns the new size. -/
theorem claim_C6 (s : St) (caller : Principal) (now : Nat) (path : Path) (start : Nat)
    (data : List Nat) (v : Uploading)
    (hs : alookup s.uploading path = some v)
    (hown : v.owner = caller)
    (hexp : ¬ (v.updated_at + 10 * 60 * 1000 < now))
    (hnd : keysNodup v.chunk)
    (hinv : v.size = chunkSum v.chunk) :
    ∃ n s' v', send_data s caller now path start data = .ok (n, s')
      ∧ alookup s'.uploading path = some v'
      ∧ v'.chunk = ainsert start data v.chunk
      ∧ n = v'.size
      ∧ v'.size = chunkSum v'.chunk
      ∧ v'.size + (match alookup v.chunk start with
          | some old => old.length
          | none => 0) = v.size + data.length
      ∧ v'.updated_at = now
      ∧ keysNodup v'.chunk := by
  simp only [send_data, hs]
  rw [if_neg (by simp [hown]), if_neg hexp]
  rcases hold : alookup v.chunk start with _ | old
  · simp only [hold]
    refine ⟨_, _, _, rfl, alookup_ainsert_self _ _ _, rfl, rfl, ?_, ?_, rfl,
      keysNodup_ainsert hnd⟩
    · rw [chunkSum_ainsert_none hold, ← hinv]
    · simp
  · have hle := alookup_length_le_chunkSum hold
    rw [← hinv] at hle
    simp only [hold]
    refine ⟨_, _, _, rfl, alookup_ainsert_self _ _ _, rfl, rfl, ?_, ?_, rfl,
      keysNodup_ainsert hnd⟩
    · rw [chunkSum_ainsert_some hnd hold, ← hinv]
      show v.size + data.length - old.length = v.size - old.length + data.length
      omega
    · show v.size + data.length - old.length + old.length = v.size + data.length
      omega

theorem claim_C6_witness :
    ∃ n s' v', send_data sExp 0 100 pDA 3 [9] = .ok (n, s')
      ∧ alookup s'.uploading pDA = some v'
      ∧ v'.chunk = ainsert 3 [9] sessA.chunk
      ∧ n = v'.size
      ∧ v'.size = chunkSum v'.chunk
      ∧ v'.size + (match alookup sessA.chunk 3 with
          | some old => old.length
          | none => 0) = sessA.size + ([9] : List Nat).length
      ∧ v'.updated_at = 100
      ∧ keysNodup v'.chunk :=
  claim_C6 sExp 0 100 pDA 3 [9] sessA rfl rfl (by decide)
    (by show (sessA.chunk.map Prod.fst).Nodup; decide) (by decide)

/-- C1: after `save(p, mt, d, overwrite = true)` succeeds, for any reader
that passes the read-permission check (the capability `load` and
`get_info` require), `load(p, 0)` returns a chunk equal to the first
`min(len(d), 1 MiB)` bytes of `d`, and `get_info(p)` reports
`size = len(d)` and `sha256 = SHA256(d)`. -/
theorem claim_C1 (H : List Nat → Digest) (s s' : St) (caller : Principal) (now : Nat)
    (path : Path) (mimetype : String) (data : List Nat)
    (h : save H s caller now path mimetype data true = .ok s') :
    ∀ reader : Principal,
      check_read_permission (get_file_info s') reader path (get_file_info s' path) = true →
      (∃ dl, load s' reader path 0 = .ok dl
        ∧ dl.chunk = data.take (min data.length MAX_READ_SIZE))
      ∧ (∃ inf, get_info s' reader path = .ok inf
        ∧ inf.size = data.length ∧ inf.sha256 = some (H data)) := by
  intro reader hread
  have hchunk : (data.drop 0).take (min MAX_READ_SIZE (data.length - 0))
      = data.take (min data.length MAX_READ_SIZE) := by
    rw [List.drop_zero, Nat.sub_zero, Nat.min_comm]
  simp only [save] at h
  rcases hval : validate_path path with e | u
  · simp only [hval] at h
    cases h
  · obtain rfl : u = () := rfl
    simp only [hval] at h
    split at h
    · cases h
    · split at h
      · cases h
      · split at h
        · cases h
        · split at h
          · cases h
          · rcases hpar : get_file_info s (parent_path path) with _ | parent_info
            · simp only [hpar] at h
              cases h
            · simp only [hpar] at h
              split at h
              · cases h
              · injection h with hs'
                rcases hfi : get_file_info s path with _ | old
                all_goals simp only [hfi] at hs'
                all_goals subst hs'
                · constructor
                  · obtain ⟨dl, hdl, _, hc, _, _, _⟩ :=
                      load_spec _ reader path 0 _ data hval hread
                        (get_file_info_set_self _ _ _) (alookup_ainsert_self _ _ _)
                    exact ⟨dl, hdl, by rw [hc, hchunk]⟩
                  · exact ⟨_, get_info_spec _ reader path _ hval hread
                      (get_file_info_set_self _ _ _), rfl, rfl⟩
                · constructor
                  · obtain ⟨dl, hdl, _, hc, _, _, _⟩ :=
                      load_spec _ reader path 0 _ data hval hread
                        (get_file_info_set_self _ _ _) (alookup_ainsert_self _ _ _)
                    exact ⟨dl, hdl, by rw [hc, hchunk]⟩
                  · exact ⟨_, get_info_spec _ reader path _ hval hread
                      (get_file_info_set_self _ _ _), rfl, rfl⟩

/-- C3 (amended): with an expired session buffered for `p`, `send_data` and
`commit_upload` by the session owner return `PERMISSION_DENIED`,
`cancel_upload` by the owner still succeeds and removes the session, and a
subsequent `begin_upload(p)` — even one passing validation, mimetype and
permission checks — fails with `ALREADY_EXISTS`, because the active-session
check precedes the expiry sweep and does not test expiry. -/
theorem claim_C3 (s : St) (now : Nat) (path : Path) (v : Uploading)
    (hs : alookup s.uploading path = some v)
    (hexp : v.updated_at + 10 * 60 * 1000 < now) :
    (∀ start data, send_data s v.owner now path start data =
        .error { code := ERROR_PERMISSION_DENIED, message := "session expired" })
    ∧ (∀ H size sha, commit_upload H s v.owner now path size sha =
        some (.error { code := ERROR_PERMISSION_DENIED, message := "transaction expired" }, s))
    ∧ (∃ s', cancel_upload s v.owner path = .ok s' ∧ alookup s'.uploading path = none)
    ∧ (∀ caller mimetype overwrite,
        validate_path path = .ok () →
        ¬ (mimetype = "" ∨ mimetype = MIMETYPE_DIRECTORY) →
        check_write_permission (get_file_info s) caller path (get_file_info s path) = true →
        begin_upload s caller now path mimetype overwrite =
          .error { code := ERROR_ALREADY_EXISTS, message := "File already exists" }) := by
  refine ⟨?_, ?_, ?_, ?_⟩
  · intro start data
    simp only [send_data, hs]
    rw [if_neg (by simp), if_pos hexp]
  · intro H size sha
    simp only [commit_upload, hs]
    rw [if_neg (by simp), if_pos hexp]
  · refine ⟨{ s with uploading := aremove path s.uploading }, ?_,
      alookup_aremove_self _ _⟩
    simp only [cancel_upload, hs]
    rw [if_neg (by simp)]
  · intro caller mimetype overwrite hval hmt hperm
    simp only [begin_upload, hval]
    rw [if_neg hmt, if_neg (by simp [hperm]), if_pos (by simp [hs])]

theorem claim_C3_witness :
    send_data sExp sessA.owner nowLate pDA 0 [1] =
      .error { code := ERROR_PERMISSION_DENIED, message := "session expired" }
    ∧ commit_upload H0 sExp sessA.owner nowLate pDA 3 none =
      some (.error { code := ERROR_PERMISSION_DENIED, message := "transaction expired" }, sExp)
    ∧ (∃ s', cancel_upload sExp sessA.owner pDA = .ok s' ∧ alookup s'.uploading pDA = none)
    ∧ begin_upload sExp 0 nowLate pDA "text/plain" true =
      .error { code := ERROR_ALREADY_EXISTS, message := "File already exists" } :=
  have h := claim_C3 sExp nowLate pDA sessA rfl (by decide)
  ⟨h.1 0 [1], h.2.1 H0 3 none, h.2.2.1,
   h.2.2.2 0 "text/plain" true rfl (by decide) (by decide)⟩

theorem claim_C3_counterexample :
    (∃ v, alookup sExp.uploading pDA = some v ∧ v.updated_at + 10 * 60 * 1000 < nowLate)
    ∧ validate_path pDA = .ok ()
    ∧ check_write_permission (get_file_info sExp) 0 pDA (get_file_info sExp pDA) = true
    ∧ begin_upload sExp 0 nowLate pDA "text/plain" true =
        .error { code := ERROR_ALREADY_EXISTS, message := "File already exists" } :=
  ⟨⟨sessA, rfl, by decide⟩, rfl, by decide, rfl⟩

/-- C7: the claim is right and the code is wrong (`// TODO expired check`):
`save` refuses with `ALREADY_EXISTS` even when the buffered upload session
for the path is already expired, because the active-session test only asks
whether an entry exists.  With the same arguments and no session, the very
same `save` succeeds. -/
theorem claim_C7_bug :
    (∃ v, alookup sExp.uploading pDA = some v ∧ v.updated_at + 10 * 60 * 1000 < nowLate)
    ∧ save H0 sExp 0 nowLate pDA "text/plain" [7] true =
        .error { code := ERROR_ALREADY_EXISTS, message := "File already exists" }
    ∧ (∃ s', save H0 s1 0 nowLate pDA "text/plain" [7] true = .ok s') :=
  ⟨⟨sessA, rfl, by decide⟩, rfl, ⟨_, rfl⟩⟩

/-- C8 (amended): `send_data` and `commit_upload` re-check the 10-minute
idle expiry first and refuse an expired session with `PERMISSION_DENIED`
(or `INVALID_SEQUENCE` for a non-owner), a successful `begin_upload`
leaves no expired session in the table (the sweep), but `cancel_upload`
performs no expiry check and can successfully complete against an expired
session. -/
theorem claim_C8 (s : St) (now : Nat) (path : Path) (v : Uploading)
    (hs : alookup s.uploading path = some v)
    (hexp : v.updated_at + 10 * 60 * 1000 < now) :
    (∀ caller start data, send_data s caller now path start data =
        (if v.owner = caller then
          .error { code := ERROR_PERMISSION_DENIED, message := "session expired" }
         else .error { code := ERROR_INVALID_SEQUENCE, message := "Invalid sequence" }))
    ∧ (∀ H caller size sha, commit_upload H s caller now path size sha =
        some ((if v.owner = caller then
            .error { code := ERROR_PERMISSION_DENIED, message := "transaction expired" }
          else .error { code := ERROR_INVALID_SEQUENCE, message := "Invalid sequence" }), s))
    ∧ (∀ caller mimetype overwrite path' s',
        begin_upload s caller now path' mimetype overwrite = .ok s' →
        ∀ q v', alookup s'.uploading q = some v' →
          ¬ (v'.updated_at + 10 * 60 * 1000 < now))
    ∧ (∃ s', cancel_upload s v.owner path = .ok s'
        ∧ alookup s'.uploading path = none) := by
  refine ⟨?_, ?_, ?_, ?_⟩
  · intro caller start data
    simp only [send_data, hs]
    by_cases hown : v.owner = caller
    · rw [if_pos hown, if_neg (by simp [hown]), if_pos hexp]
    · rw [if_neg hown, if_pos hown]
  · intro H caller size sha
    simp only [commit_upload, hs]
    by_cases hown : v.owner = caller
    · rw [if_pos hown, if_neg (by simp [hown]), if_pos hexp]
    · rw [if_neg hown, if_pos hown]
  · intro caller mimetype overwrite path' s' h q v' hq
    simp only [begin_upload] at h
    rcases hval : validate_path path' with e | u
    · simp only [hval] at h
      cases h
    · simp only [hval] at h
      split at h
      · cases h
      · split at h
        · cases h
        · split at h
          · cases h
          · split at h
            · cases h
            · rcases hpar : get_file_info s (parent_path path') with _ | parent_info
              · simp only [hpar] at h
                cases h
              · simp only [hpar] at h
                split at h
                · cases h
                · injection h with hs'
                  subst hs'
                  simp only at hq
                  by_cases hqp : path' = q
                  · subst hqp
                    rw [alookup_ainsert_self] at hq
                    injection hq with hv'
                    subst hv'
                    show ¬ (now + 10 * 60 * 1000 < now)
                    omega
                  · rw [alookup_ainsert_ne _ _ hqp] at hq
                    have := alookup_filter_some hq
                    simp only [decide_eq_true_eq] at this
                    omega
  · refine ⟨{ s with uploading := aremove path s.uploading }, ?_,
      alookup_aremove_self _ _⟩
    simp only [cancel_upload, hs]
    rw [if_neg (by simp)]

theorem claim_C8_witness :
    (send_data sExp 1 nowLate pDA 0 [1] =
      (if sessA.owner = 1 then
        .error { code := ERROR_PERMISSION_DENIED, message := "session expired" }
       else .error { code := ERROR_INVALID_SEQUENCE, message := "Invalid sequence" }))
    ∧ (commit_upload H0 sExp 0 nowLate pDA 3 none =
        some ((if sessA.owner = 0 then
            .error { code := ERROR_PERMISSION_DENIED, message := "transaction expired" }
          else .error { code := ERROR_INVALID_SEQUENCE, message := "Invalid sequence" }), sExp))
    ∧ begin_upload sExp 0 nowLate pDB "text/plain" false = .ok sBegin
    ∧ ¬ (sessFresh.updated_at + 10 * 60 * 1000 < nowLate)
    ∧ (∃ s', cancel_upload sExp sessA.owner pDA = .ok s'
        ∧ alookup s'.uploading pDA = none) :=
  have h := claim_C8 sExp nowLate pDA sessA rfl (by decide)
  ⟨h.1 1 0 [1], h.2.1 H0 0 3 none, rfl,
   h.2.2.1 0 "text/plain" false pDB sBegin rfl pDB sessFresh rfl, h.2.2.2⟩

theorem claim_C8_counterexample :
    (∃ v, alookup sExp.uploading pDA = some v ∧ v.updated_at + 10 * 60 * 1000 < nowLate
      ∧ v.owner = 0)
    ∧ (∃ s', cancel_upload sExp 0 pDA = .ok s') :=
  ⟨⟨sessA, rfl, by decide, rfl⟩, ⟨_, rfl⟩⟩

/-- C9: with manage permission on an existing node whose ACL sets are
sorted and duplicate-free, adding `π` to all three sets twice leaves
exactly one occurrence of `π` in each (the second add is a no-op),
removing an absent principal leaves the state unchanged, and both
operations keep the three ACL sets sorted and duplicate-free. -/
theorem claim_C9 (s : St) (caller : Principal) (path : Path) (π π' : Principal)
    (info : FileInfo)
    (hval : validate_path path = .ok ())
    (hinfo : get_file_info s path = some info)
    (hperm : check_manage_permission (get_file_info s) caller path (get_file_info s path)
      = true)
    (hm : StrictSorted info.manageable) (hr : StrictSorted info.readable)
    (hw : StrictSorted info.writable)
    (habsm : π' ∉ info.manageable) (habsr : π' ∉ info.readable)
    (habsw : π' ∉ info.writable) :
    (∃ s₁ info₁, add_permission s caller path π true true true = .ok s₁
      ∧ get_file_info s₁ path = some info₁
      ∧ info₁.manageable.count π = 1 ∧ info₁.readable.count π = 1
      ∧ info₁.writable.count π = 1
      ∧ StrictSorted info₁.manageable ∧ StrictSorted info₁.readable
      ∧ StrictSorted info₁.writable
      ∧ add_permission s₁ caller path π true true true = .ok s₁)
    ∧ remove_permission s caller path π' true true true = .ok s
    ∧ (∀ π'' s₂, remove_permission s caller path π'' true true true = .ok s₂ →
        ∃ info₂, get_file_info s₂ path = some info₂
          ∧ StrictSorted info₂.manageable ∧ StrictSorted info₂.readable
          ∧ StrictSorted info₂.writable) := by
  set info₁ : FileInfo :=
    { info with manageable := aclInsert info.manageable π,
                readable := aclInsert info.readable π,
                writable := aclInsert info.writable π } with hinfo₁
  set s₁ := set_file_info s path info₁ with hs₁
  have hmeta₁ : get_file_info s₁ path = some info₁ := get_file_info_set_self _ _ _
  have hm₁ : StrictSorted info₁.manageable := strictSorted_aclInsert hm
  have hr₁ : StrictSorted info₁.readable := strictSorted_aclInsert hr
  have hw₁ : StrictSorted info₁.writable := strictSorted_aclInsert hw
  have hcm : info₁.manageable.count π = 1 := count_aclInsert hm
  have hcr : info₁.readable.count π = 1 := count_aclInsert hr
  have hcw : info₁.writable.count π = 1 := count_aclInsert hw
  have hπm : π ∈ info₁.manageable := List.one_le_count_iff.mp (by simp [hcm])
  have hπr : π ∈ info₁.readable := List.one_le_count_iff.mp (by simp [hcr])
  have hπw : π ∈ info₁.writable := List.one_le_count_iff.mp (by simp [hcw])
  have hperm₁ : check_manage_permission (get_file_info s₁) caller path
      (get_file_info s₁ path) = true := by
    refine checkPerm_mono (get_file_info s) (get_file_info s₁) FileInfo.manageable caller
      path ?_ hperm
    intro q hq hl
    by_cases hqp : path = q
    · subst hqp
      rw [hinfo] at hl
      rw [hmeta₁]
      simp only [localAcl, List.any_eq_true] at hl ⊢
      obtain ⟨x, hx, hxeq⟩ := hl
      exact ⟨x, mem_aclInsert_of_mem hx, hxeq⟩
    · rw [hs₁, get_file_info_set_ne s info₁ hqp]
      exact hl
  refine ⟨⟨s₁, info₁, ?_, hmeta₁, hcm, hcr, hcw, hm₁, hr₁, hw₁, ?_⟩, ?_, ?_⟩
  · rw [add_permission_spec s caller path π info hval hinfo hperm, hs₁]
  · rw [add_permission_spec s₁ caller path π info₁ hval hmeta₁ hperm₁]
    rw [aclInsert_of_mem (strictSorted_le hm₁) hπm,
        aclInsert_of_mem (strictSorted_le hr₁) hπr,
        aclInsert_of_mem (strictSorted_le hw₁) hπw]
    show Except.ok (set_file_info s₁ path info₁) = Except.ok s₁
    rw [set_file_info_no_op hmeta₁]
  · rw [remove_permission_spec s caller path π' info hval hinfo hperm,
        aclRemove_of_not_mem habsm, aclRemove_of_not_mem habsr,
        aclRemove_of_not_mem habsw]
    show Except.ok (set_file_info s path info) = Except.ok s
    rw [set_file_info_no_op hinfo]
  · intro π'' s₂ h4
    rw [remove_permission_spec s caller path π'' info hval hinfo hperm] at h4
    injection h4 with h4
    subst h4
    exact ⟨_, get_file_info_set_self _ _ _, strictSorted_aclRemove hm,
      strictSorted_aclRemove hr, strictSorted_aclRemove hw⟩

theorem claim_C9_witness :
    (∃ s₁ info₁, add_permission s0 0 ROOT 4 true true true = .ok s₁
      ∧ get_file_info s₁ ROOT = some info₁
      ∧ info₁.manageable.count 4 = 1 ∧ info₁.readable.count 4 = 1
      ∧ info₁.writable.count 4 = 1
      ∧ StrictSorted info₁.manageable ∧ StrictSorted info₁.readable
      ∧ StrictSorted info₁.writable
      ∧ add_permission s₁ 0 ROOT 4 true true true = .ok s₁)
    ∧ remove_permission s0 0 ROOT 7 true true true = .ok s0
    ∧ (∀ π'' s₂, remove_permission s0 0 ROOT π'' true true true = .ok s₂ →
        ∃ info₂, get_file_info s₂ ROOT = some info₂
          ∧ StrictSorted info₂.manageable ∧ StrictSorted info₂.readable
          ∧ StrictSorted info₂.writable) :=
  claim_C9 s0 0 ROOT 4 7 rootInfo rfl rfl (by decide)
    (by simp [StrictSorted, rootInfo]) (by simp [StrictSorted, rootInfo])
    (by simp [StrictSorted, rootInfo]) (by decide) (by decide) (by decide)

/-- C10: a successful `add_permission` or `remove_permission` changes at
most the three ACL sets of the target node's metadata record: the file
store, the session table, every other node's metadata, and the node's
`size`, `creator`, `created_at`, `updater`, `updated_at`, `mimetype`,
`sha256` and `signature` fields are all unchanged — in particular
`updated_at` is not refreshed by an ACL change. -/
theorem claim_C10 (s : St) (caller : Principal) (path : Path) (π : Principal)
    (m r w : Bool) :
    (∀ s₁, add_permission s caller path π m r w = .ok s₁ →
      s₁.fs = s.fs ∧ s₁.uploading = s.uploading
      ∧ (∀ q, q ≠ path → alookup s₁.meta q = alookup s.meta q)
      ∧ ∃ info info₁, get_file_info s path = some info
          ∧ get_file_info s₁ path = some info₁
          ∧ info₁.size = info.size ∧ info₁.creator = info.creator
          ∧ info₁.created_at = info.created_at ∧ info₁.updater = info.updater
          ∧ info₁.updated_at = info.updated_at ∧ info₁.mimetype = info.mimetype
          ∧ info₁.sha256 = info.sha256 ∧ info₁.signature = info.signature)
    ∧ (∀ s₂, remove_permission s caller path π m r w = .ok s₂ →
      s₂.fs = s.fs ∧ s₂.uploading = s.uploading
      ∧ (∀ q, q ≠ path → alookup s₂.meta q = alookup s.meta q)
      ∧ ∃ info info₂, get_file_info s path = some info
          ∧ get_file_info s₂ path = some info₂
          ∧ info₂.size = info.size ∧ info₂.creator = info.creator
          ∧ info₂.created_at = info.created_at ∧ info₂.updater = info.updater
          ∧ info₂.updated_at = info.updated_at ∧ info₂.mimetype = info.mimetype
          ∧ info₂.sha256 = info.sha256 ∧ info₂.signature = info.signature) := by
  constructor
  · intro s₁ h
    simp only [add_permission] at h
    rcases hval : validate_path path with e | u
    · simp only [hval] at h
      cases h
    · simp only [hval] at h
      split at h
      · cases h
      · rcases hfi : get_file_info s path with _ | info
        · simp only [hfi] at h
          cases h
        · simp only [hfi] at h
          injection h with h1
          subst h1
          refine ⟨rfl, rfl, fun q hq => ?_, info, _, rfl,
            get_file_info_set_self _ _ _, ?_⟩
          · exact alookup_ainsert_ne _ _ (Ne.symm hq)
          · rcases m <;> rcases r <;> rcases w <;>
              exact ⟨rfl, rfl, rfl, rfl, rfl, rfl, rfl, rfl⟩
  · intro s₂ h
    simp only [remove_permission] at h
    rcases hval : validate_path path with e | u
    · simp only [hval] at h
      cases h
    · simp only [hval] at h
      split at h
      · cases h
      · rcases hfi : get_file_info s path with _ | info
        · simp only [hfi] at h
          cases h
        · simp only [hfi] at h
          injection h with h1
          subst h1
          refine ⟨rfl, rfl, fun q hq => ?_, info, _, rfl,
            get_file_info_set_self _ _ _, ?_⟩
          · exact alookup_ainsert_ne _ _ (Ne.symm hq)
          · rcases m <;> rcases r <;> rcases w <;>
              exact ⟨rfl, rfl, rfl, rfl, rfl, rfl, rfl, rfl⟩

theorem claim_C10_witness :
    (sAddC10.fs = s0.fs ∧ sAddC10.uploading = s0.uploading
      ∧ (∀ q, q ≠ ROOT → alookup sAddC10.meta q = alookup s0.meta q)
      ∧ ∃ info info₁, get_file_info s0 ROOT = some info
          ∧ get_file_info sAddC10 ROOT = some info₁
          ∧ info₁.size = info.size ∧ info₁.creator = info.creator
          ∧ info₁.created_at = info.created_at ∧ info₁.updater = info.updater
          ∧ info₁.updated_at = info.updated_at ∧ info₁.mimetype = info.mimetype
          ∧ info₁.sha256 = info.sha256 ∧ info₁.signature = info.signature)
    ∧ (s0.fs = s0.fs ∧ s0.uploading = s0.uploading
      ∧ (∀ q, q ≠ ROOT → alookup s0.meta q = alookup s0.meta q)
      ∧ ∃ info info₂, get_file_info s0 ROOT = some info
          ∧ get_file_info s0 ROOT = some info₂
          ∧ info₂.size = info.size ∧ info₂.creator = info.creator
          ∧ info₂.created_at = info.created_at ∧ info₂.updater = info.updater
          ∧ info₂.updated_at = info.updated_at ∧ info₂.mimetype = info.mimetype
          ∧ info₂.sha256 = info.sha256 ∧ info₂.signature = info.signature) :=
  ⟨(claim_C10 s0 0 ROOT 4 true true true).1 sAddC10 rfl,
   (claim_C10 s0 0 ROOT 4 true true true).2 s0 rfl⟩

/-- C4 (amended): for an active non-expired session owned by the caller
whose buffered size equals the declared size and all of whose buffered
chunks are nonempty, `commit_upload` returns `INVALID_SIZE` exactly when
the offset chain from 0 stops at a missing offset other than the declared
size, returns `INVALID_HASH` exactly when a caller-supplied digest differs
from the streaming SHA-256 of the assembled bytes, and in either failure
case performs no rename into place, writes no metadata, and leaves the
session in the table.  (Without the nonempty-chunk restriction the source
loops forever once the chain hits an empty chunk.) -/
theorem claim_C4 (H : List Nat → Digest) (s : St) (caller : Principal) (now : Nat)
    (path : Path) (size : Nat) (sha : Option Digest) (v : Uploading)
    (hs : alookup s.uploading path = some v)
    (hown : v.owner = caller)
    (hexp : ¬ (v.updated_at + 10 * 60 * 1000 < now))
    (hsz : v.size = size)
    (hval : validate_path path = .ok ())
    (hne : ∀ kv ∈ v.chunk, kv.2 ≠ ([] : List Nat)) :
    ((∃ s', commit_upload H s caller now path size sha =
        some (.error { code := ERROR_INVALID_SIZE, message := "Invalid size" }, s'))
      ↔ (∃ i, Reach v.chunk i ∧ alookup v.chunk i = none ∧ i ≠ size))
    ∧ ((∃ s', commit_upload H s caller now path size sha =
        some (.error { code := ERROR_INVALID_HASH, message := "Invalid hash" }, s'))
      ↔ (∃ asm, Assembles v.chunk size asm ∧ ∃ g, sha = some g ∧ g ≠ H asm))
    ∧ (∀ e s', commit_upload H s caller now path size sha = some (.error e, s') →
        (e.code = ERROR_INVALID_SIZE ∨ e.code = ERROR_INVALID_HASH) →
        alookup s'.fs path = alookup s.fs path
        ∧ s'.meta = s.meta
        ∧ s'.uploading = s.uploading
        ∧ alookup s'.uploading path = some v) := by
  have hcount : (v.chunk.map Prod.fst).countP (fun k => decide (0 ≤ k))
      < v.chunk.length + 1 := by
    have h1 : (v.chunk.map Prod.fst).countP (fun k => decide (0 ≤ k))
        ≤ (v.chunk.map Prod.fst).length := List.countP_le_length _
    simp only [List.length_map] at h1
    omega
  have hA := commitLoop_invalidSize_iff H v.chunk size sha hne (v.chunk.length + 1) 0 []
    hcount
  have hB := commitLoop_invalidHash_iff H v.chunk size sha hne (v.chunk.length + 1) 0 []
    hcount
  simp only [List.nil_append] at hB
  simp only [commit_upload, hs]
  rw [if_neg (by simp [hown]), if_neg hexp, if_neg (by simp [hsz])]
  rcases hloop : commitLoop H v.chunk size sha (v.chunk.length + 1) 0 [] with
    acc | acc | acc | _
  all_goals rw [hloop] at hA hB
  all_goals simp only [hloop]
  · refine ⟨iff_of_true ⟨_, rfl⟩ (hA.mp ⟨acc, rfl⟩), iff_of_false ?_ ?_, ?_⟩
    · rintro ⟨s', he⟩
      simp only [Option.some.injEq, Prod.mk.injEq, Except.error.injEq,
        Error.mk.injEq] at he
      exact absurd he.1.1 (by decide)
    · intro hrhs
      obtain ⟨acc', habs⟩ := hB.mpr hrhs
      cases habs
    · intro e s' he _
      simp only [Option.some.injEq, Prod.mk.injEq] at he
      obtain ⟨_, he2⟩ := he
      subst he2
      exact ⟨alookup_ainsert_ne _ _ (temp_path_ne hval), rfl, rfl, hs⟩
  · refine ⟨iff_of_false ?_ ?_, iff_of_true ⟨_, rfl⟩ (hB.mp ⟨acc, rfl⟩), ?_⟩
    · rintro ⟨s', he⟩
      simp only [Option.some.injEq, Prod.mk.injEq, Except.error.injEq,
        Error.mk.injEq] at he
      exact absurd he.1.1 (by decide)
    · intro hrhs
      obtain ⟨acc', habs⟩ := hA.mpr hrhs
      cases habs
    · intro e s' he _
      simp only [Option.some.injEq, Prod.mk.injEq] at he
      obtain ⟨_, he2⟩ := he
      subst he2
      exact ⟨alookup_ainsert_ne _ _ (temp_path_ne hval), rfl, rfl, hs⟩
  · refine ⟨iff_of_false ?_ ?_, iff_of_false ?_ ?_, ?_⟩
    · rintro ⟨s', he⟩
      simp only [Option.some.injEq, Prod.mk.injEq] at he
      exact Except.noConfusion he.1
    · intro hrhs
      obtain ⟨acc', habs⟩ := hA.mpr hrhs
      cases habs
    · rintro ⟨s', he⟩
      simp only [Option.some.injEq, Prod.mk.injEq] at he
      exact Except.noConfusion he.1
    · intro hrhs
      obtain ⟨acc', habs⟩ := hB.mpr hrhs
      cases habs
    · intro e s' he _
      simp only [Option.some.injEq, Prod.mk.injEq] at he
      exact Except.noConfusion he.1
  · refine ⟨iff_of_false ?_ ?_, iff_of_false ?_ ?_, ?_⟩
    · rintro ⟨s', he⟩
      cases he
    · intro hrhs
      obtain ⟨acc', habs⟩ := hA.mpr hrhs
      cases habs
    · rintro ⟨s', he⟩
      cases he
    · intro hrhs
      obtain ⟨acc', habs⟩ := hB.mpr hrhs
      cases habs
    · intro e s' he _
      cases he

theorem claim_C4_witness :
    ((∃ s', commit_upload H0 sExp 0 100 pDA 3 none =
        some (.error { code := ERROR_INVALID_SIZE, message := "Invalid size" }, s'))
      ↔ (∃ i, Reach sessA.chunk i ∧ alookup sessA.chunk i = none ∧ i ≠ 3))
    ∧ ((∃ s', commit_upload H0 sExp 0 100 pDA 3 none =
        some (.error { code := ERROR_INVALID_HASH, message := "Invalid hash" }, s'))
      ↔ (∃ asm, Assembles sessA.chunk 3 asm ∧ ∃ g, (none : Option Digest) = some g
          ∧ g ≠ H0 asm))
    ∧ (∀ e s', commit_upload H0 sExp 0 100 pDA 3 none = some (.error e, s') →
        (e.code = ERROR_INVALID_SIZE ∨ e.code = ERROR_INVALID_HASH) →
        alookup s'.fs pDA = alookup sExp.fs pDA
        ∧ s'.meta = sExp.meta
        ∧ s'.uploading = sExp.uploading
        ∧ alookup s'.uploading pDA = some sessA) :=
  claim_C4 H0 sExp 0 100 pDA 3 none sessA rfl rfl (by decide) rfl rfl (by decide)

theorem claim_C4_counterexample :
    sessEC.owner = 0
    ∧ ¬ (sessEC.updated_at + 10 * 60 * 1000 < 1)
    ∧ sessEC.size = 0
    ∧ alookup sEC.uploading pDA = some sessEC
    ∧ ([9] : List Nat) ≠ H0 []
    ∧ commit_upload H0 sEC 0 1 pDA 0 (some [9]) = none :=
  ⟨rfl, by decide, rfl, rfl, by decide, rfl⟩

theorem claim_C1_witness :
    (∃ dl, load sC1 0 pDA 0 = .ok dl
      ∧ dl.chunk = ([1, 2, 3] : List Nat).take (min ([1, 2, 3] : List Nat).length MAX_READ_SIZE))
    ∧ (∃ inf, get_info sC1 0 pDA = .ok inf
      ∧ inf.size = ([1, 2, 3] : List Nat).length ∧ inf.sha256 = some (H0 [1, 2, 3])) :=
  claim_C1 H0 s1 sC1 0 5 pDA "text/plain" [1, 2, 3] rfl 0 (by decide)

end Canistorage
